import Mathlib

/-!
Verification development for the rich-text layout and editing engine.

The definitions below are a shallow embedding of the C++ sources:
  - `src/value_runs.hpp`   (run-length attribute storage),
  - `src/u8bidiln.cpp`     (BiDi line engine: setLine, level queries, run
                            reordering, logical/visual index maps),
  - `src/font_registry.cpp`(font registry, family registration, fallback),
  - `sample/text_box.cpp`  (text box editor glue).

Machine integers (`int32_t`, `uint32_t`, `size_t`) are modelled as `Int` or
`Nat`; all values reachable under the stated hypotheses are far below the
overflow bounds of the original types, so no wrap-around modelling is needed.
C++ `std::vector`/pointer walks become `List` recursions; out-parameters
become returned values; `UErrorCode*` becomes a passed-and-returned value.
-/

namespace RichText

/-! ## Value-run storage (`src/value_runs.hpp`) -/

/-- Embedding of `Text::ValueRuns<T>`: parallel sequences of values and
(strictly increasing, caller-supplied) limits. -/
structure ValueRuns (T : Type) where
  m_values : List T
  m_limits : List Int
deriving Repr

/-- Embedding of `ValueRuns::add(limit, value)`: `emplace_back` on both
parallel vectors. -/
def ValueRuns.add {T : Type} (vr : ValueRuns T) (limit : Int) (value : T) : ValueRuns T :=
  { m_values := vr.m_values ++ [value], m_limits := vr.m_limits ++ [limit] }

/-- Loop body of `ValueRuns::get_run_index`: the branchless lower-bound
binary search `while (count > 0) { step = count/2; i = first + step; ... }`
over `m_limits`. -/
def get_run_index_loop (limits : List Int) (index : Int) (first count : Nat) : Nat :=
  if count > 0 then
    let step := count / 2
    let i := first + step
    if limits.getD i 0 ≤ index then
      get_run_index_loop limits index (i + 1) (count - step - 1)
    else
      get_run_index_loop limits index first step
  else first
termination_by count
decreasing_by
  · omega
  · omega

/-- Embedding of `ValueRuns::get_run_index(index)`. -/
def ValueRuns.get_run_index {T : Type} (vr : ValueRuns T) (index : Int) : Nat :=
  get_run_index_loop vr.m_limits index 0 vr.m_limits.length

/-- Embedding of `ValueRuns::get_value(index)`: `m_values[get_run_index(index)]`.
The C++ indexing is undefined for an out-of-domain index; `getD` supplies the
`default` value there. -/
def ValueRuns.get_value {T : Type} [Inhabited T] (vr : ValueRuns T) (index : Int) : T :=
  vr.m_values.getD (vr.get_run_index index) default

/-- First loop of `ValueRuns::get_runs_subset`:
`while (i < m_limits.size() && m_limits[i] < offset) ++i;` — returns the
remaining parallel suffixes. -/
def subsetSkip {T : Type} (limits : List Int) (values : List T) (offset : Int) :
    List Int × List T :=
  match limits, values with
  | l :: ls, v :: vs =>
    if l < offset then subsetSkip ls vs offset else (l :: ls, v :: vs)
  | ls, vs => (ls, vs)

/-- Second loop of `ValueRuns::get_runs_subset`: re-emit each limit rebased by
`offset`, clamping the final one to `length` and stopping there. -/
def subsetEmit {T : Type} (limits : List Int) (values : List T) (offset length : Int)
    (output : ValueRuns T) : ValueRuns T :=
  match limits, values with
  | l :: ls, v :: vs =>
    let newLimit := l - offset
    if newLimit < length then subsetEmit ls vs offset length (output.add newLimit v)
    else output.add length v
  | _, _ => output

/-- Embedding of `ValueRuns::get_runs_subset(offset, length, output)`. -/
def ValueRuns.get_runs_subset {T : Type} (vr : ValueRuns T) (offset length : Int)
    (output : ValueRuns T) : ValueRuns T :=
  let rest := subsetSkip vr.m_limits vr.m_values offset
  subsetEmit rest.1 rest.2 offset length output

/-- Linear specification of the lower-bound search: the number of limits that
are `≤ index`.  For a strictly sorted limits list this is the index of the run
containing `index`; used only in proofs, as the reference point for
`get_run_index_loop`. -/
def countLE (limits : List Int) (index : Int) : Nat :=
  match limits with
  | [] => 0
  | l :: ls => if l ≤ index then countLE ls index + 1 else countLE ls index

/-! ## BiDi line engine (`src/u8bidiln.cpp`)

The paragraph/line state types mirror the fields of `U8BiDi` that the line
functions read.  Fields and macros declared in `u8bidi_impl.hpp` (which is not
part of the sources) are modelled from the spec where noted. -/

/-- Embedding of `UErrorCode` (only the codes this file produces). -/
inductive UErrorCode where
  | U_ZERO_ERROR
  | U_ILLEGAL_ARGUMENT_ERROR
  | U_MEMORY_ALLOCATION_ERROR
deriving DecidableEq, Repr

/-- Embedding of `U_FAILURE(errorCode)`: any non-zero code here is a failure
(no warning codes are modelled). -/
def U_FAILURE (ec : UErrorCode) : Bool :=
  ec ≠ UErrorCode.U_ZERO_ERROR

/-- Embedding of `UBiDiDirection` (UBIDI_LTR / UBIDI_RTL / UBIDI_MIXED). -/
inductive UBiDiDirection where
  | UBIDI_LTR
  | UBIDI_RTL
  | UBIDI_MIXED
deriving DecidableEq, Repr

/-- Modelled from the spec: ICU directional property classes (the `DirProp`
type lives in the missing `u8bidi_impl.hpp`). -/
inductive DirProp where
  | L | R | EN | ES | ET | AN | CS | B | S | WS | ON
  | LRE | LRO | AL | RLE | RLO | PDF | NSM | BN
  | FSI | LRI | RLI | PDI
deriving DecidableEq, Repr

instance : Inhabited DirProp := ⟨DirProp.L⟩

/-- Modelled from the spec: membership in `MASK_WS` — the classes the
trailing-whitespace scan crosses: "whitespace (including BN and
explicit-format codes)". -/
def inMaskWS : DirProp → Bool
  | DirProp.WS | DirProp.BN
  | DirProp.LRE | DirProp.RLE | DirProp.LRO | DirProp.RLO | DirProp.PDF
  | DirProp.FSI | DirProp.LRI | DirProp.RLI | DirProp.PDI => true
  | _ => false

/-- Modelled from the spec: `IS_BIDI_CONTROL_CHAR(c)` (missing
`u8bidi_impl.hpp`) — LRM/RLM/ALM, the explicit embedding/override codes and
PDF, and the isolate codes. -/
def IS_BIDI_CONTROL_CHAR (c : Int) : Bool :=
  c = 0x200E ∨ c = 0x200F ∨ c = 0x061C ∨
  (0x202A ≤ c ∧ c ≤ 0x202E) ∨ (0x2066 ≤ c ∧ c ≤ 0x2069)

/-- Modelled from the spec: `UBIDI_MAP_NOWHERE` — the sentinel for positions
that map to inserted marks or removed controls. -/
def UBIDI_MAP_NOWHERE : Int := -1

/-- Modelled from the spec: the LRM/RLM insertion flags stored in a run's
`insertRemove` field (`LRM_BEFORE | RLM_BEFORE` and `LRM_AFTER | RLM_AFTER`
masks).  `insertRemove` holds these flags only when it is non-negative; the
test is a bitwise AND on the non-negative value. -/
def hasInsertFlag (insertRemove : Int) (mask : Nat) : Bool :=
  insertRemove.toNat &&& mask ≠ 0

def LRM_BEFORE : Nat := 1
def LRM_AFTER : Nat := 2
def RLM_BEFORE : Nat := 4
def RLM_AFTER : Nat := 8

/-- Embedding of the `Run` struct as used by the line functions after
`u8bidi_get_runs` has finished: `logicalStart` is the plain index
(`GET_INDEX`), `odd` is the direction bit packed into its high bit by
`ADD_ODD_BIT_FROM_LEVEL`, `visualLimit` is the prefix-summed visual limit,
and `insertRemove` the mark/control annotation. -/
structure BRun where
  logicalStart : Int
  odd : Bool
  visualLimit : Int
  insertRemove : Int
deriving DecidableEq, Repr

instance : Inhabited BRun := ⟨⟨0, false, 0, 0⟩⟩

/-- Embedding of the `U8BiDi` fields a line object carries.  `text` is the
byte/char16 sequence exactly as the source indexes it (the source carries the
documented FIXME of indexing a UTF-8 buffer with `char16_t` reads; the
embedding reproduces the per-index access).  `runs` is the materialized run
array; `runCount = runs.length` once `u8bidi_get_runs` has run. -/
structure U8BiDiLine where
  text : List Int
  length : Int
  originalLength : Int
  resultLength : Int
  paraLevel : Int
  paraCount : Int
  direction : UBiDiDirection
  trailingWSStart : Int
  dirProps : List DirProp
  levels : List Int
  runs : List BRun
  runCount : Int
  insertPointsSize : Int
  controlCount : Int
  flags : Int
  reorderingMode : Int
  reorderingOptions : Int
deriving DecidableEq, Repr

instance : Inhabited U8BiDiLine :=
  ⟨⟨[], 0, 0, 0, 0, 0, UBiDiDirection.UBIDI_LTR, 0, [], [], [], -1, 0, 0, 0, 0, 0⟩⟩

/-- Embedding of the `U8BiDi` fields of a finished paragraph object that
`u8bidi_set_line` reads.  `paras` is the list of paragraph limits (modelled
from the spec; the paragraph machinery lives in a file outside the sources),
used by `u8bidi_get_paragraph`. -/
structure U8BiDiPara where
  text : List Int
  length : Int
  paraLevel : Int
  paraCount : Int
  direction : UBiDiDirection
  trailingWSStart : Int
  dirProps : List DirProp
  levels : List Int
  paras : List Int
  controlCount : Int
  reorderingMode : Int
  reorderingOptions : Int
deriving DecidableEq, Repr

/-- Modelled from the spec: `get_para_level_internal` (`GET_PARA_LEVEL` in the
missing header) — for the objects considered here it reads the `paraLevel`
field; per the source comment in `u8bidi_set_line`, "pBiDi->paraLevel is set
correctly for the line even when contextual multiple paragraphs". -/
def get_para_level_internal_para (pBiDi : U8BiDiPara) (_charIndex : Int) : Int :=
  pBiDi.paraLevel

/-- Modelled from the spec: the line-object variant of `GET_PARA_LEVEL`. -/
def get_para_level_internal (pBiDi : U8BiDiLine) (_charIndex : Int) : Int :=
  pBiDi.paraLevel

/-- Modelled from the spec: `u8bidi_get_paragraph`, reduced to the index of
the paragraph containing `charIndex` (the index of the first paragraph limit
exceeding it). -/
def paraIndexOf (pBiDi : U8BiDiPara) (charIndex : Int) : Nat :=
  (pBiDi.paras.takeWhile (fun limit => limit ≤ charIndex)).length

/-- Count of bidi control characters in `text`
(`for(j=start; j<limit; j++) if(IS_BIDI_CONTROL_CHAR(text[j])) count++`,
here over an already-sliced list). -/
def countControls (text : List Int) : Int :=
  match text with
  | [] => 0
  | c :: rest => (if IS_BIDI_CONTROL_CHAR c then 1 else 0) + countControls rest

/-- First backward scan of `setTrailingWSStart`:
`while(start>0 && DIRPROP_FLAG(dirProps[start-1])&MASK_WS) --start;`. -/
def wsScanBack (dirProps : List DirProp) : Nat → Nat
  | 0 => 0
  | s + 1 => if inMaskWS (dirProps.getD s default) then wsScanBack dirProps s else s + 1

/-- Second backward scan of `setTrailingWSStart`:
`while(start>0 && levels[start-1]==paraLevel) --start;`. -/
def levScanBack (levels : List Int) (paraLevel : Int) : Nat → Nat
  | 0 => 0
  | s + 1 => if levels.getD s 0 = paraLevel then levScanBack levels paraLevel s else s + 1

/-- Embedding of `setTrailingWSStart` (static, called only from
`u8bidi_set_line` on the line slices).  Returns the computed
`trailingWSStart`. -/
def setTrailingWSStart (dirProps : List DirProp) (levels : List Int) (length : Nat)
    (paraLevel : Int) : Nat :=
  if dirProps.getD (length - 1) default = DirProp.B then length
  else levScanBack levels paraLevel (wsScanBack dirProps length)

/-- Direction-uniformity loop of `u8bidi_set_line`: see if
`levels[1..trailingWSStart-1]` all have the parity `level`
(`for(;;) { if(i==trailingWSStart) ...; else if((levels[i]&1)!=level) ...}`).
Returns `true` when the scan reaches `trailingWSStart` without a mismatch. -/
def levelsUniformFrom (levels : List Int) (level : Int) (i trailingWSStart : Nat) : Bool :=
  if i ≥ trailingWSStart then true
  else if (levels.getD i 0) % 2 ≠ level then false
  else levelsUniformFrom levels level (i + 1) trailingWSStart
termination_by trailingWSStart - i
decreasing_by omega

/-- Direction value of a level parity
(`(UBiDiDirection)(paraLevel & 1)`: 0 is LTR, 1 is RTL). -/
def dirOfParity (parity : Int) : UBiDiDirection :=
  if parity = 1 then UBiDiDirection.UBIDI_RTL else UBiDiDirection.UBIDI_LTR

/-- Embedding of `u8bidi_set_line(pParaBiDi, start, limit, pLineBiDi,
pErrorCode)`.  The C++ mutates `*pLineBiDi` and `*pErrorCode`; the embedding
returns the (possibly unchanged) line object and the error code.  A `none`
line plays the role of a null `pLineBiDi`.  The object-validity check
(`RETURN_VOID_IF_NOT_VALID_PARA`) is modelled as always passing: every
`U8BiDiPara` value here represents a finished paragraph.  The two range
checks are the `RETURN_VOID_IF_BAD_RANGE` macros (modelled from the spec:
`arg < low ∨ arg ≥ high` fails). -/
def u8bidi_set_line (pParaBiDi : U8BiDiPara) (start limit : Int)
    (pLineBiDi : Option U8BiDiLine) (pErrorCode : UErrorCode) :
    Option U8BiDiLine × UErrorCode :=
  if U_FAILURE pErrorCode then (pLineBiDi, pErrorCode)
  else if start < 0 ∨ start ≥ limit then (pLineBiDi, UErrorCode.U_ILLEGAL_ARGUMENT_ERROR)
  else if limit < 0 ∨ limit ≥ pParaBiDi.length + 1 then
    (pLineBiDi, UErrorCode.U_ILLEGAL_ARGUMENT_ERROR)
  else
    match pLineBiDi with
    | none => (none, UErrorCode.U_ILLEGAL_ARGUMENT_ERROR)
    | some oldLine =>
      if paraIndexOf pParaBiDi start ≠ paraIndexOf pParaBiDi (limit - 1) then
        (some oldLine, UErrorCode.U_ILLEGAL_ARGUMENT_ERROR)
      else
        let length := limit - start
        let lineText := (pParaBiDi.text.drop start.toNat).take length.toNat
        let lineParaLevel := get_para_level_internal_para pParaBiDi start
        let controlCount :=
          if pParaBiDi.controlCount > 0 then countControls lineText else 0
        let lineDirProps := (pParaBiDi.dirProps.drop start.toNat).take length.toNat
        let lineLevels := (pParaBiDi.levels.drop start.toNat).take length.toNat
        let base : U8BiDiLine :=
          { text := lineText
            length := length
            originalLength := length
            resultLength := length - controlCount
            paraLevel := lineParaLevel
            paraCount := pParaBiDi.paraCount
            direction := UBiDiDirection.UBIDI_LTR
            trailingWSStart := 0
            dirProps := lineDirProps
            levels := lineLevels
            runs := []
            runCount := -1
            insertPointsSize := oldLine.insertPointsSize
            controlCount := controlCount
            flags := 0
            reorderingMode := pParaBiDi.reorderingMode
            reorderingOptions := pParaBiDi.reorderingOptions }
        if pParaBiDi.direction ≠ UBiDiDirection.UBIDI_MIXED then
          let tws :=
            if pParaBiDi.trailingWSStart ≤ start then 0
            else if pParaBiDi.trailingWSStart < limit then pParaBiDi.trailingWSStart - start
            else length
          (some { base with direction := pParaBiDi.direction, trailingWSStart := tws },
            pErrorCode)
        else
          let tws := setTrailingWSStart lineDirProps lineLevels length.toNat lineParaLevel
          let dir :=
            if tws = 0 then dirOfParity (lineParaLevel % 2)
            else
              let level := (lineLevels.getD 0 0) % 2
              if (tws : Int) < length ∧ lineParaLevel % 2 ≠ level then
                UBiDiDirection.UBIDI_MIXED
              else if levelsUniformFrom lineLevels level 1 tws then dirOfParity level
              else UBiDiDirection.UBIDI_MIXED
          match dir with
          | UBiDiDirection.UBIDI_LTR =>
            (some { base with
                    direction := UBiDiDirection.UBIDI_LTR,
                    paraLevel := if lineParaLevel % 2 = 1 then lineParaLevel + 1
                                 else lineParaLevel,
                    trailingWSStart := 0 }, pErrorCode)
          | UBiDiDirection.UBIDI_RTL =>
            (some { base with
                    direction := UBiDiDirection.UBIDI_RTL,
                    paraLevel := if lineParaLevel % 2 = 1 then lineParaLevel
                                 else lineParaLevel + 1,
                    trailingWSStart := 0 }, pErrorCode)
          | UBiDiDirection.UBIDI_MIXED =>
            (some { base with
                    direction := UBiDiDirection.UBIDI_MIXED,
                    trailingWSStart := (tws : Int) },
              pErrorCode)

/-- Mixed-direction search loop of `u8bidi_get_visual_index`:
`for(i=0; i<runCount; ++i)` — walk the visual runs accumulating
`visualStart`, return the visual index once the run containing
`logicalIndex` is found (`none` mirrors the `i>=runCount` fall-through that
returns `UBIDI_MAP_NOWHERE`). -/
def visSearch (runs : List BRun) (logicalIndex visualStart : Int) : Option Int :=
  match runs with
  | [] => none
  | r :: rest =>
    let length := r.visualLimit - visualStart
    let offset := logicalIndex - r.logicalStart
    if 0 ≤ offset ∧ offset < length then
      some (if r.odd then visualStart + length - offset - 1 else visualStart + offset)
    else
      visSearch rest logicalIndex r.visualLimit

/-- Well-formedness of the materialized run array, relative to an incoming
visual start: the prefix-summed `visualLimit` fields are non-decreasing from
`vs` on (they are strictly increasing in reality — each run holds at least
one unit — but monotonicity is all the index maps rely on). -/
def LimitsMono (vs : Int) : List BRun → Prop
  | [] => True
  | r :: rest => vs ≤ r.visualLimit ∧ LimitsMono r.visualLimit rest

/-- The last `visualLimit` of the run array (0 when empty): equal to the
line length for a finished `u8bidi_get_runs` result. -/
def lastVisualLimit : List BRun → Int
  | [] => 0
  | [r] => r.visualLimit
  | _ :: r2 :: rest => lastVisualLimit (r2 :: rest)

/-- Visual start of run `t` relative to an incoming visual start `vs`: the
previous run's `visualLimit`, or `vs` for the first run (proof helper). -/
def prevLimit (vs : Int) (runs : List BRun) (t : Nat) : Int :=
  match t with
  | 0 => vs
  | s + 1 => (runs.getD s default).visualLimit

/-- Inserted-marks block of `u8bidi_get_visual_index`
(`if(pBiDi->insertPoints.size>0) { ... }`): add the marks found before the
computed visual index.  The C++ loop runs with no bound; the `[]` case is
unreachable for a well-formed run array and returns the accumulated value. -/
def addMarksVisual (runs : List BRun) (visualIndex visualStart markFound : Int) : Int :=
  match runs with
  | [] => visualIndex + markFound
  | r :: rest =>
    let insertRemove := r.insertRemove
    let markFound :=
      if hasInsertFlag insertRemove (LRM_BEFORE ||| RLM_BEFORE) then markFound + 1
      else markFound
    if visualIndex < r.visualLimit then visualIndex + markFound
    else
      let markFound :=
        if hasInsertFlag insertRemove (LRM_AFTER ||| RLM_AFTER) then markFound + 1
        else markFound
      addMarksVisual rest visualIndex r.visualLimit markFound

/-- Count of bidi control characters in `text[start..limit)`, indexed the way
the source does (`uchar = pBiDi->text[j]`). -/
def countControlsRange (text : List Int) (start limit : Int) : Int :=
  if start < limit then
    (if IS_BIDI_CONTROL_CHAR (text.getD start.toNat 0) then 1 else 0) +
      countControlsRange text (start + 1) limit
  else 0
termination_by (limit - start).toNat
decreasing_by omega

/-- Removed-controls block of `u8bidi_get_visual_index`
(`else if(pBiDi->controlCount>0) { ... }` body after the early
`IS_BIDI_CONTROL_CHAR(text[logicalIndex])` test): subtract the controls found
before the computed visual index.  `none` mirrors an (unreachable for
well-formed lines) exhaustion of the run array. -/
def subControlsVisual (text : List Int) (runs : List BRun)
    (logicalIndex visualIndex visualStart controlFound : Int) : Option Int :=
  match runs with
  | [] => none
  | r :: rest =>
    let length := r.visualLimit - visualStart
    let insertRemove := r.insertRemove
    if visualIndex ≥ r.visualLimit then
      subControlsVisual text rest logicalIndex visualIndex r.visualLimit
        (controlFound - insertRemove)
    else if insertRemove = 0 then some (visualIndex - controlFound)
    else
      let startJ := if r.odd then logicalIndex + 1 else r.logicalStart
      let limitJ := if r.odd then r.logicalStart + length else logicalIndex
      some (visualIndex - (controlFound + countControlsRange text startJ limitJ))

/-- Embedding of `u8bidi_get_visual_index(pBiDi, logicalIndex, pErrorCode)`.
The call to `u8bidi_get_runs` in the mixed branch is modelled as reading the
already-materialized `runs` field (the function is memoizing: it returns
immediately when `runCount >= 0`, and every state considered here has its
runs set). -/
def u8bidi_get_visual_index (pBiDi : U8BiDiLine) (logicalIndex : Int)
    (pErrorCode : UErrorCode) : Int × UErrorCode :=
  if U_FAILURE pErrorCode then (-1, pErrorCode)
  else if logicalIndex < 0 ∨ logicalIndex ≥ pBiDi.length then
    (-1, UErrorCode.U_ILLEGAL_ARGUMENT_ERROR)
  else
    let found : Option Int :=
      match pBiDi.direction with
      | UBiDiDirection.UBIDI_LTR => some logicalIndex
      | UBiDiDirection.UBIDI_RTL => some (pBiDi.length - logicalIndex - 1)
      | UBiDiDirection.UBIDI_MIXED => visSearch pBiDi.runs logicalIndex 0
    match found with
    | none => (UBIDI_MAP_NOWHERE, pErrorCode)
    | some visualIndex =>
      if pBiDi.insertPointsSize > 0 then
        (addMarksVisual pBiDi.runs visualIndex 0 0, pErrorCode)
      else if pBiDi.controlCount > 0 then
        if IS_BIDI_CONTROL_CHAR (pBiDi.text.getD logicalIndex.toNat 0) then
          (UBIDI_MAP_NOWHERE, pErrorCode)
        else
          match subControlsVisual pBiDi.text pBiDi.runs logicalIndex visualIndex 0 0 with
          | none => (UBIDI_MAP_NOWHERE, pErrorCode)
          | some v => (v, pErrorCode)
      else (visualIndex, pErrorCode)

/-- Inserted-marks block of `u8bidi_get_logical_index`: subtract the marks
found up to the visual index, or report `none` when the visual index falls on
an inserted mark (the two `return UBIDI_MAP_NOWHERE` exits). -/
def subMarksLogical (runs : List BRun) (visualIndex visualStart markFound : Int) :
    Option Int :=
  match runs with
  | [] => none
  | r :: rest =>
    let length := r.visualLimit - visualStart
    let insertRemove := r.insertRemove
    if hasInsertFlag insertRemove (LRM_BEFORE ||| RLM_BEFORE) then
      if visualIndex ≤ visualStart + markFound then none
      else
        let markFound := markFound + 1
        if visualIndex < r.visualLimit + markFound then some (visualIndex - markFound)
        else if hasInsertFlag insertRemove (LRM_AFTER ||| RLM_AFTER) then
          if visualIndex = visualStart + length + markFound then none
          else subMarksLogical rest visualIndex r.visualLimit (markFound + 1)
        else subMarksLogical rest visualIndex r.visualLimit markFound
    else
      if visualIndex < r.visualLimit + markFound then some (visualIndex - markFound)
      else if hasInsertFlag insertRemove (LRM_AFTER ||| RLM_AFTER) then
        if visualIndex = visualStart + length + markFound then none
        else subMarksLogical rest visualIndex r.visualLimit (markFound + 1)
      else subMarksLogical rest visualIndex r.visualLimit markFound

/-- Inner counting loop of the removed-controls block of
`u8bidi_get_logical_index` (`for(j=0; j<length; j++) { ... }`): count the
controls among the first glyph positions of the run until the adjusted visual
index is reached. -/
def countCtlRun (text : List Int) (evenRun : Bool) (logicalStart logicalEnd : Int)
    (visualIndex visualStart controlFound : Int) (j length : Nat) : Int :=
  if j < length then
    let k := if evenRun then logicalStart + (j : Int) else logicalEnd - (j : Int)
    let controlFound :=
      if IS_BIDI_CONTROL_CHAR (text.getD k.toNat 0) then controlFound + 1
      else controlFound
    if visualIndex + controlFound = visualStart + (j : Int) then controlFound
    else countCtlRun text evenRun logicalStart logicalEnd visualIndex visualStart
      controlFound (j + 1) length
  else controlFound
termination_by length - j
decreasing_by omega

/-- Removed-controls block of `u8bidi_get_logical_index`: add the controls
found until the visual index, returning the adjusted visual index. -/
def addControlsLogical (text : List Int) (runs : List BRun)
    (visualIndex visualStart controlFound : Int) : Int :=
  match runs with
  | [] => visualIndex + controlFound
  | r :: rest =>
    let length := r.visualLimit - visualStart
    let insertRemove := r.insertRemove
    if visualIndex ≥ r.visualLimit - controlFound + insertRemove then
      addControlsLogical text rest visualIndex r.visualLimit (controlFound - insertRemove)
    else if insertRemove = 0 then visualIndex + controlFound
    else
      let logicalStart := r.logicalStart
      let logicalEnd := logicalStart + length - 1
      visualIndex + countCtlRun text (!r.odd) logicalStart logicalEnd visualIndex
        visualStart controlFound 0 length.toNat

/-- Linear run search of `u8bidi_get_logical_index` (`runCount <= 10`):
`for(i=0; visualIndex>=runs[i].visualLimit; ++i) {}` — index of the first run
whose `visualLimit` exceeds `visualIndex` (the run count when none does,
which the C++ would read past). -/
def logSearchLin (runs : List BRun) (visualIndex : Int) : Nat :=
  match runs with
  | [] => 0
  | r :: rest =>
    if visualIndex ≥ r.visualLimit then logSearchLin rest visualIndex + 1 else 0

/-- Binary run search of `u8bidi_get_logical_index` (`runCount > 10`).  The
C++ `for(;;)` loop carries `begin`/`limit` with no emptiness guard (the
source comment notes the middle test is guaranteed to find the run); the
embedding adds the `begin < limit` guard to stay total, returning 0 on the
unreachable empty interval. -/
def logSearchBin (runs : List BRun) (visualIndex : Int) (bg lim : Nat) : Nat :=
  if bg < lim then
    let i := (bg + lim) / 2
    if visualIndex ≥ (runs.getD i default).visualLimit then
      logSearchBin runs visualIndex (i + 1) lim
    else if i = 0 ∨ visualIndex ≥ (runs.getD (i - 1) default).visualLimit then i
    else logSearchBin runs visualIndex bg i
  else 0
termination_by lim - bg
decreasing_by
  · omega
  · omega

/-- Embedding of `u8bidi_get_logical_index(pBiDi, visualIndex, pErrorCode)`.
As in `u8bidi_get_visual_index`, the `u8bidi_get_runs` call is modelled as
reading the materialized `runs`/`runCount` fields. -/
def u8bidi_get_logical_index (pBiDi : U8BiDiLine) (visualIndex : Int)
    (pErrorCode : UErrorCode) : Int × UErrorCode :=
  if U_FAILURE pErrorCode then (-1, pErrorCode)
  else if visualIndex < 0 ∨ visualIndex ≥ pBiDi.resultLength then
    (-1, UErrorCode.U_ILLEGAL_ARGUMENT_ERROR)
  else if pBiDi.insertPointsSize = 0 ∧ pBiDi.controlCount = 0 ∧
      pBiDi.direction = UBiDiDirection.UBIDI_LTR then
    (visualIndex, pErrorCode)
  else if pBiDi.insertPointsSize = 0 ∧ pBiDi.controlCount = 0 ∧
      pBiDi.direction = UBiDiDirection.UBIDI_RTL then
    (pBiDi.length - visualIndex - 1, pErrorCode)
  else
    let adjusted : Option Int :=
      if pBiDi.insertPointsSize > 0 then
        subMarksLogical pBiDi.runs visualIndex 0 0
      else if pBiDi.controlCount > 0 then
        some (addControlsLogical pBiDi.text pBiDi.runs visualIndex 0 0)
      else some visualIndex
    match adjusted with
    | none => (UBIDI_MAP_NOWHERE, pErrorCode)
    | some v =>
      let i :=
        if pBiDi.runCount ≤ 10 then logSearchLin pBiDi.runs v
        else logSearchBin pBiDi.runs v 0 pBiDi.runCount.toNat
      let r := pBiDi.runs.getD i default
      if !r.odd then
        (r.logicalStart +
          (v - (if i > 0 then (pBiDi.runs.getD (i - 1) default).visualLimit else 0)),
          pErrorCode)
      else
        (r.logicalStart + r.visualLimit - v - 1, pErrorCode)

/-- Embedding of `u8bidi_get_level_at(pBiDi, charIndex)`.  The
`IS_VALID_PARA_OR_LINE` object check is modelled as passing (every value
represents a finished object); the index range check is kept. -/
def u8bidi_get_level_at (pBiDi : U8BiDiLine) (charIndex : Int) : Int :=
  if charIndex < 0 ∨ pBiDi.length ≤ charIndex then 0
  else if pBiDi.direction ≠ UBiDiDirection.UBIDI_MIXED ∨
      charIndex ≥ pBiDi.trailingWSStart then
    get_para_level_internal pBiDi charIndex
  else
    pBiDi.levels.getD charIndex.toNat 0

/-! ## Run reordering (`reorderLine` in `src/u8bidiln.cpp`)

`reorderLine` permutes the entries of the `runs` array; the only data it reads
from an entry is its resolved level (`levels[runs[i].logicalStart]`), and the
trailing-WS run — when present, always the last entry on input — is treated as
having level `paraLevel` without consulting `levels`.  The embedding is
therefore stated over an arbitrary entry type `α` with a level function
`lev : α → Nat`; instantiating `α := BRun` with the levels lookup recovers the
concrete call from `u8bidi_get_runs`. -/

/-- One reordering pass at level `l`: the body of one iteration of
`while(--maxLevel>=minLevel)` — repeatedly locate a maximal sequence of
entries whose level is `≥ l` and reverse it in place
(`while(firstRun<endRun) { swap }`). -/
def reversePass {α : Type} (lev : α → Nat) (l : Nat) : List α → List α
  | [] => []
  | r :: rest =>
    if lev r < l then r :: reversePass lev l rest
    else
      ((r :: rest).takeWhile (fun x => l ≤ lev x)).reverse ++
        reversePass lev l ((r :: rest).dropWhile (fun x => l ≤ lev x))
termination_by rs => rs.length
decreasing_by
  · simp only [List.length_cons]; omega
  · have hx : (fun x => decide (l ≤ lev x)) r = true := by
      simp only [decide_eq_true_eq]; omega
    rw [show (r :: rest).dropWhile (fun x => decide (l ≤ lev x)) =
        rest.dropWhile (fun x => decide (l ≤ lev x)) by
      simp [List.dropWhile, hx]]
    have := (List.dropWhile_sublist (l := rest) (fun x => decide (l ≤ lev x))).length_le
    simp only [List.length_cons]
    omega

/-- Passes at levels `hi, hi-1, ..., lo` (none when `hi < lo`), highest
first: the `while(--maxLevel>=minLevel)` loop. -/
def passesDown {α : Type} (lev : α → Nat) (lo : Nat) : Nat → List α → List α
  | 0, rs => if lo = 0 then reversePass lev 0 rs else rs
  | hi + 1, rs =>
    if hi + 1 < lo then rs
    else passesDown lev lo hi (reversePass lev (hi + 1) rs)

/-- Embedding of `reorderLine(pBiDi, minLevel, maxLevel)`.  Field
correspondence: `hasWS` is `pBiDi->trailingWSStart < pBiDi->length` (a
separate trailing-WS run, stored last in `runs`), in which case the main loop
excludes it (`--runCount`).  After the early-out test the source increments
`minLevel` and runs passes from `maxLevel-1` down to it; if that incremented
level is even (the original minimum was odd) the tail block reverses the
entire run array (the index arithmetic with the adjusted `runCount` swaps
positions `0..runCountOriginal-1` in both `hasWS` cases). -/
def reorderLine {α : Type} (lev : α → Nat) (hasWS : Bool) (minLevel maxLevel : Nat)
    (rs : List α) : List α :=
  if maxLevel ≤ (minLevel ||| 1) then rs
  else
    let minL := minLevel + 1
    let body := if hasWS then rs.dropLast else rs
    let body2 := passesDown lev minL (maxLevel - 1) body
    let rs2 := if hasWS then body2 ++ rs.drop (rs.length - 1) else body2
    if minL % 2 = 0 then rs2.reverse else rs2

/-- Reference Unicode Bidirectional Algorithm line reordering, written from
the spec: "for every l from maxLevel down to minLevel|1, reverse each maximal
sequence of runs at level ≥ l". -/
def reorderRef {α : Type} (lev : α → Nat) (minLevel maxLevel : Nat) (rs : List α) :
    List α :=
  passesDown lev (minLevel ||| 1) maxLevel rs

/-- Modelled from the spec: `UBIDI_MAX_EXPLICIT_LEVEL` (125). -/
def UBIDI_MAX_EXPLICIT_LEVEL : Nat := 125

/-- Adjacent entries of the run array have distinct levels: the runs built by
`u8bidi_get_runs` are maximal same-level spans
(`while(++i<limit && levels[i]==level)`), so consecutive ones differ. -/
def adjDistinct {α : Type} (lev : α → Nat) : List α → Prop
  | [] => True
  | [_] => True
  | a :: b :: rest => lev a ≠ lev b ∧ adjDistinct lev (b :: rest)

/-- Precondition of the `reorderLine` call made by `u8bidi_get_runs`:
levels of the counted runs lie between `minLevel` and `maxLevel`, adjacent
runs have distinct levels, and when a separate trailing-WS run exists it is
the last entry, carries `paraLevel = minLevel` (every level resolved by the
UBA is at least the paragraph level, so the minimum including the WS run is
the paragraph level), and the run preceding it is not at `paraLevel`
(`setTrailingWSStart` would have merged it). -/
def ReorderPre {α : Type} (lev : α → Nat) (hasWS : Bool) (minLevel maxLevel : Nat)
    (rs : List α) : Prop :=
  maxLevel ≤ UBIDI_MAX_EXPLICIT_LEVEL ∧
  if hasWS then
    ∃ pre bl ws, rs = pre ++ [bl, ws] ∧ lev ws = minLevel ∧ lev bl ≠ minLevel ∧
      adjDistinct lev (pre ++ [bl]) ∧
      ∀ r ∈ pre ++ [bl], minLevel ≤ lev r ∧ lev r ≤ maxLevel
  else
    rs ≠ [] ∧ adjDistinct lev rs ∧ ∀ r ∈ rs, minLevel ≤ lev r ∧ lev r ≤ maxLevel

/-! ## Font registry (`src/font_registry.cpp`)

Face and family handles are `Nat`s; handle `0` plays the role of an invalid
(default-constructed) `FontFace`, matching its `operator bool` (the handle
types live in the missing `font_registry.hpp` and are modelled from the
spec: "FontFamily: a small integer handle. FontFace: a small integer
handle").  Weights, styles and scripts are `Nat` codes.  FreeType/HarfBuzz
loading is external I/O: `get_font_data` is modelled as a function
`fontDataOf : face → size → Option FontDataM` passed in as a parameter, a
`none` result standing for the "face creation fails" empty `FontData`. -/

/-- Loaded sized font data, reduced to what `get_sub_font` consults:
`FontData::has_codepoint`. -/
structure FontDataM where
  hasCodepoint : Nat → Bool

/-- Embedding of the anonymous-namespace `FamilyData` record. -/
structure FamilyDataM where
  lookup : Nat → Nat → Nat
  linkedFamilies : List Nat
  fallbackFamilies : List Nat
  scripts : Nat → Bool
  initialized : Bool

/-- Default-constructed `FamilyData` (empty lookup table, no links, no
scripts, not initialized). -/
def FamilyDataM.empty : FamilyDataM :=
  { lookup := fun _ _ => 0
    linkedFamilies := []
    fallbackFamilies := []
    scripts := fun _ => false
    initialized := false }

instance : Inhabited FamilyDataM := ⟨FamilyDataM.empty⟩

/-- Embedding of the registry globals touched by family registration:
`g_familyData`, `g_familiesByName`, `g_faces` (reduced to the name table
`g_facesByName` and the face count; the loaded byte blobs are irrelevant to
the claims), with faces indexed from 1 so that handle 0 stays invalid. -/
structure RegistryM where
  familyData : List FamilyDataM
  familiesByName : List (String × Nat)
  facesByName : List (String × Nat)
  faceCount : Nat

/-- Embedding of `Text::Font` (family handle, size, weight, style). -/
structure FontM where
  family : Nat
  size : Nat
  weight : Nat
  style : Nat

/-- Embedding of `SingleScriptFont` (face, sizePx); equality by value. -/
structure SingleScriptFontM where
  face : Nat
  size : Nat
deriving DecidableEq, Repr

/-- Embedding of `FontRegistryError`. -/
inductive FontRegistryError where
  | NONE
  | ALREADY_LOADED
  | NO_FACES
deriving DecidableEq, Repr

/-- Embedding of `FontFaceCreateInfo` (name, uri, weight, style). -/
structure FontFaceCreateInfoM where
  name : String
  uri : String
  weight : Nat
  style : Nat

/-- Embedding of `FontFamilyCreateInfo`; `faces = none` plays the role of a
null `pFaces` pointer. -/
structure FontFamilyCreateInfoM where
  name : String
  scriptCodes : List Nat
  linkedFamilies : List String
  fallbackFamilies : List String
  faces : Option (List FontFaceCreateInfoM)

/-- Family record accessor corresponding to `g_familyData[family.handle]`. -/
def RegistryM.fam (reg : RegistryM) (family : Nat) : FamilyDataM :=
  reg.familyData.getD family FamilyDataM.empty

/-- Update of the family record at `family` (writing through the
`family_get_*` accessors mutates `g_familyData[family.handle]` in place). -/
def RegistryM.setFam (reg : RegistryM) (family : Nat) (f : FamilyDataM → FamilyDataM) :
    RegistryM :=
  { reg with familyData := reg.familyData.set family (f (reg.fam family)) }

/-- Registry well-formedness: every name-table entry points at an existing
family record (maintained by construction in the source, where
`get_or_add_family` allocates the record and the table entry together). -/
def RegWF (reg : RegistryM) : Prop :=
  ∀ p ∈ reg.familiesByName, p.2 < reg.familyData.length

/-- Embedding of the static `get_or_add_family(name)`. -/
def get_or_add_family (reg : RegistryM) (name : String) : RegistryM × Nat :=
  match reg.familiesByName.find? (fun p => p.1 = name) with
  | some p => (reg, p.2)
  | none =>
    let result := reg.familyData.length
    ({ reg with
        familiesByName := reg.familiesByName ++ [(name, result)]
        familyData := reg.familyData ++ [FamilyDataM.empty] },
      result)

/-- Embedding of the static `get_or_add_face(faceInfo)` (the
`file_read_bytes` call is external I/O; only the allocated handle matters
here, and faces are numbered from 1 to keep 0 invalid). -/
def get_or_add_face (reg : RegistryM) (faceInfo : FontFaceCreateInfoM) :
    RegistryM × Nat :=
  match reg.facesByName.find? (fun p => p.1 = faceInfo.name) with
  | some p => (reg, p.2)
  | none =>
    let result := reg.faceCount + 1
    ({ reg with
        facesByName := reg.facesByName ++ [(faceInfo.name, result)]
        faceCount := result },
      result)

/-- Linked/fallback-family loop of `register_family`: get-or-add each named
family and append its handle to the accessed list. -/
def addFamilyRefs (reg : RegistryM) (family : Nat) (names : List String)
    (write : FamilyDataM → Nat → FamilyDataM) : RegistryM :=
  match names with
  | [] => reg
  | name :: rest =>
    let step := get_or_add_family reg name
    addFamilyRefs (step.1.setFam family (fun fd => write fd step.2)) family rest write

/-- Face loop of `register_family`: load each face, record it in the
weight×style table, and track the default face (prefer Regular/Normal —
weight and style code 0 — else the first loaded). -/
def registerFaces (reg : RegistryM) (family : Nat) (faces : List FontFaceCreateInfoM)
    (defaultFace : Nat) : RegistryM × Nat :=
  match faces with
  | [] => (reg, defaultFace)
  | faceInfo :: rest =>
    let step := get_or_add_face reg faceInfo
    let reg := step.1.setFam family (fun fd =>
      { fd with lookup := fun w s =>
          if w = faceInfo.weight ∧ s = faceInfo.style then step.2 else fd.lookup w s })
    let defaultFace :=
      if step.2 ≠ 0 then
        if faceInfo.weight = 0 ∧ faceInfo.style = 0 then step.2
        else if defaultFace = 0 then step.2
        else defaultFace
      else defaultFace
    registerFaces reg family rest defaultFace

/-- Embedding of `FontRegistry::register_family(familyInfo)`. -/
def register_family (reg : RegistryM) (familyInfo : FontFamilyCreateInfoM) :
    RegistryM × FontRegistryError :=
  let step := get_or_add_family reg familyInfo.name
  let reg := step.1
  let family := step.2
  if (reg.fam family).initialized then (reg, FontRegistryError.ALREADY_LOADED)
  else
    let reg :=
      if familyInfo.scriptCodes.length > 0 then
        reg.setFam family (fun fd =>
          { fd with scripts := fun c => fd.scripts c || c ∈ familyInfo.scriptCodes })
      else
        reg.setFam family (fun fd => { fd with scripts := fun _ => true })
    let reg := addFamilyRefs reg family familyInfo.linkedFamilies
      (fun fd h => { fd with linkedFamilies := fd.linkedFamilies ++ [h] })
    let reg := addFamilyRefs reg family familyInfo.fallbackFamilies
      (fun fd h => { fd with fallbackFamilies := fd.fallbackFamilies ++ [h] })
    match familyInfo.faces with
    | none =>
      (reg.setFam family (fun fd =>
        { fd with
          scripts := fun _ => false
          linkedFamilies := []
          fallbackFamilies := [] }),
        FontRegistryError.NO_FACES)
    | some faces =>
      let step2 := registerFaces reg family faces 0
      let reg := step2.1
      let defaultFace := step2.2
      let reg := reg.setFam family (fun fd =>
        { fd with lookup := fun w s =>
            if fd.lookup w s = 0 then defaultFace else fd.lookup w s })
      (reg.setFam family (fun fd => { fd with initialized := true }),
        FontRegistryError.NONE)

/-- Linked-family loop of the static `get_font_for_script`. -/
def findLinkedFace (reg : RegistryM) (linked : List Nat) (weight style script : Nat) :
    Option Nat :=
  match linked with
  | [] => none
  | fam :: rest =>
    let fd := reg.fam fam
    if fd.initialized ∧ fd.scripts script then some (fd.lookup weight style)
    else findLinkedFace reg rest weight style script

/-- Embedding of the static `get_font_for_script(family, weight, style,
script)`. -/
def get_font_for_script (reg : RegistryM) (family weight style script : Nat) : Nat :=
  if (reg.fam family).scripts script then (reg.fam family).lookup weight style
  else
    match findLinkedFace reg (reg.fam family).linkedFamilies weight style script with
    | some face => face
    | none => (reg.fam family).lookup weight style

/-- Fallback-family loop of the static `find_compatible_font`. -/
def findFallbackFace (reg : RegistryM) (fontDataOf : Nat → Nat → Option FontDataM)
    (font : FontM) (codepoint : Nat) (fallbackFamilies : List Nat) :
    Option (Nat × FontDataM) :=
  match fallbackFamilies with
  | [] => none
  | fam :: rest =>
    if !(reg.fam fam).initialized then
      findFallbackFace reg fontDataOf font codepoint rest
    else
      let face := (reg.fam fam).lookup font.weight font.style
      match fontDataOf face font.size with
      | none => findFallbackFace reg fontDataOf font codepoint rest
      | some fontData =>
        if fontData.hasCodepoint codepoint then some (face, fontData)
        else findFallbackFace reg fontDataOf font codepoint rest

/-- Embedding of the static `find_compatible_font(font, codepoint, baseFont,
fallbackFamilies, fontData)`; the returned pair carries the `fontData`
out-parameter of the successful lookup. -/
def find_compatible_font (reg : RegistryM) (fontDataOf : Nat → Nat → Option FontDataM)
    (font : FontM) (codepoint : Nat) (baseFont : Nat) (fallbackFamilies : List Nat) :
    Option (Nat × FontDataM) :=
  if baseFont = 0 then none
  else
    match fontDataOf baseFont font.size with
    | none => none
    | some fontData =>
      if fontData.hasCodepoint codepoint then some (baseFont, fontData)
      else findFallbackFace reg fontDataOf font codepoint fallbackFamilies

/-- First loop of the static `get_sub_font`: advance the iterator until some
font can render a codepoint; returns that font with its data and the
remaining iterator. The iterator is the list of `(native index, codepoint)`
pairs of `text[offset, limit)`, native indices relative to `offset` (the
iterator is opened at `text + offset`). -/
def gsfFirst (reg : RegistryM) (fontDataOf : Nat → Nat → Option FontDataM)
    (font : FontM) (baseFont : Nat) (fallbackFamilies : List Nat)
    (cps : List (Nat × Nat)) : Option ((Nat × FontDataM) × List (Nat × Nat)) :=
  match cps with
  | [] => none
  | (_, c) :: rest =>
    match find_compatible_font reg fontDataOf font c baseFont fallbackFamilies with
    | some r => some (r, rest)
    | none => gsfFirst reg fontDataOf font baseFont fallbackFamilies rest

/-- Second loop of the static `get_sub_font`: keep advancing while the chosen
face has each subsequent codepoint; returns the final `offset` value (the
miss position `offset + idx`, or `limit` at iterator end). -/
def gsfExtent (fontData : FontDataM) (offset limit : Nat) (cps : List (Nat × Nat)) :
    Nat :=
  match cps with
  | [] => limit
  | (idx, c) :: rest =>
    if fontData.hasCodepoint c then gsfExtent fontData offset limit rest
    else offset + idx

/-- Embedding of the static `get_sub_font(font, iter, offset, limit,
script)`: returns the advanced `offset` together with the produced
`SingleScriptFont`. -/
def get_sub_font (reg : RegistryM) (fontDataOf : Nat → Nat → Option FontDataM)
    (font : FontM) (cps : List (Nat × Nat)) (offset limit : Nat) (script : Nat) :
    Nat × SingleScriptFontM :=
  let baseFont := get_font_for_script reg font.family font.weight font.style script
  let fallbackFamilies := (reg.fam font.family).fallbackFamilies
  match gsfFirst reg fontDataOf font baseFont fallbackFamilies cps with
  | none => (limit, { face := baseFont, size := font.size })
  | some (r, rest) =>
    (gsfExtent r.2 offset limit rest, { face := r.1, size := font.size })

/-! ## Text box editor glue (`sample/text_box.cpp`)

The corresponding header is not among the sources; the state fields are
modelled from the spec ("TextBox state: owned source text, derived
contentText, ..., current cursor, selection anchor (valid iff a selection
exists), cached layout, cached list of emitted draw rectangles") and from the
member accesses in `sample/text_box.cpp`.  `CursorPosition` is a byte offset;
the selection anchor uses `Option` for its INVALID sentinel.  Pixel
coordinates are stored and copied but never computed with in the claims
below, so they are carried as `Int` stand-ins for the `float` fields.  The
rect-building pipeline (`create_text_rects`, reaching layout and atlas code
outside the sources) is abstracted as a parameter `createRects`, and the
content-text projection of `Text::parse_inline_formatting` (in a missing
source) as a parameter `parseRich`; `make_default_formatting_runs` sets
`contentText` to the source text per the spec. -/

/-- Abstract draw rectangle (token); the claims only compare rect lists for
identity, never their contents. -/
abbrev RectM : Type := Nat

/-- Embedding of the `TextBox` state.  `focused` models
`g_focusedTextBox == this`. -/
structure TextBoxM where
  m_text : List Char
  m_contentText : List Char
  m_font : Option Nat
  m_textColor : Nat
  m_position : Int × Int
  m_size : Int × Int
  m_textXAlignment : Nat
  m_textYAlignment : Nat
  m_textWrapped : Bool
  m_richText : Bool
  m_editable : Bool
  m_selectable : Bool
  m_multiLine : Bool
  m_cursorPosition : Nat
  m_selectionStart : Option Nat
  m_textRects : List RectM
  focused : Bool
deriving DecidableEq, Repr

section TextBoxDefs

variable (createRects : TextBoxM → List RectM) (parseRich : List Char → List Char)

/-- Embedding of `TextBox::should_focused_use_rich_text()`. -/
def should_focused_use_rich_text (tb : TextBoxM) : Bool :=
  tb.m_richText && !tb.m_editable

/-- Embedding of `TextBox::recalc_text_internal(richText, postLayoutOp)` with
a null post-layout op: clear the rect list, return early without a font or
with empty content, otherwise recompute the content text and the rects. -/
def recalc_text_internal (richText : Bool) (tb : TextBoxM) : TextBoxM :=
  let tb := { tb with m_textRects := ([] : List RectM) }
  if tb.m_font = none then tb
  else
    let content := if richText then parseRich tb.m_text else tb.m_text
    let tb := { tb with m_contentText := content }
    if content = [] then tb
    else { tb with m_textRects := createRects tb }

/-- Embedding of `TextBox::recalc_text()`. -/
def recalc_text (tb : TextBoxM) : TextBoxM :=
  recalc_text_internal createRects parseRich
    (if tb.focused then should_focused_use_rich_text tb else tb.m_richText) tb

/-- Embedding of `TextBox::set_text(text)`. -/
def set_text (tb : TextBoxM) (text : List Char) : TextBoxM :=
  recalc_text createRects parseRich { tb with m_text := text }

/-- Embedding of `TextBox::set_font(font)`. -/
def set_font (tb : TextBoxM) (font : Option Nat) : TextBoxM :=
  recalc_text createRects parseRich { tb with m_font := font }

/-- Embedding of `TextBox::set_position(x, y)`. -/
def set_position (tb : TextBoxM) (x y : Int) : TextBoxM :=
  recalc_text createRects parseRich { tb with m_position := (x, y) }

/-- Embedding of `TextBox::set_size(width, height)`. -/
def set_size (tb : TextBoxM) (width height : Int) : TextBoxM :=
  recalc_text createRects parseRich { tb with m_size := (width, height) }

/-- Embedding of `TextBox::set_text_x_alignment(align)`. -/
def set_text_x_alignment (tb : TextBoxM) (align : Nat) : TextBoxM :=
  recalc_text createRects parseRich { tb with m_textXAlignment := align }

/-- Embedding of `TextBox::set_text_y_alignment(align)`. -/
def set_text_y_alignment (tb : TextBoxM) (align : Nat) : TextBoxM :=
  recalc_text createRects parseRich { tb with m_textYAlignment := align }

/-- Embedding of `TextBox::set_text_wrapped(wrapped)`. -/
def set_text_wrapped (tb : TextBoxM) (wrapped : Bool) : TextBoxM :=
  recalc_text createRects parseRich { tb with m_textWrapped := wrapped }

/-- Embedding of `TextBox::set_rich_text(richText)`. -/
def set_rich_text (tb : TextBoxM) (richText : Bool) : TextBoxM :=
  recalc_text createRects parseRich { tb with m_richText := richText }

/-- Embedding of `TextBox::set_multi_line(multiLine)` (note: the source body
is the bare field assignment). -/
def set_multi_line (tb : TextBoxM) (multiLine : Bool) : TextBoxM :=
  { tb with m_multiLine := multiLine }

/-- Embedding of `TextBox::set_editable(editable)` (bare field assignment). -/
def set_editable (tb : TextBoxM) (editable : Bool) : TextBoxM :=
  { tb with m_editable := editable }

/-- Embedding of `TextBox::set_selectable(selectable)` (bare field
assignment). -/
def set_selectable (tb : TextBoxM) (selectable : Bool) : TextBoxM :=
  { tb with m_selectable := selectable }

/-- Embedding of `TextBox::insert_text(text, startIndex)`: advance the cursor
by the inserted byte count, then rebuild the buffer through `set_text`. -/
def insert_text (tb : TextBoxM) (text : List Char) (startIndex : Nat) : TextBoxM :=
  let tb := { tb with m_cursorPosition := tb.m_cursorPosition + text.length }
  if startIndex < tb.m_text.length then
    set_text createRects parseRich tb
      (tb.m_text.take startIndex ++ text ++ tb.m_text.drop startIndex)
  else
    set_text createRects parseRich tb (tb.m_text ++ text)

/-- Embedding of `TextBox::remove_text(startIndex, endIndex)`. -/
def remove_text (tb : TextBoxM) (startIndex endIndex : Nat) : TextBoxM :=
  set_text createRects parseRich tb
    (tb.m_text.take startIndex ++ tb.m_text.drop endIndex)

/-- Embedding of `TextBox::remove_highlighted_text()`. -/
def remove_highlighted_text (tb : TextBoxM) : TextBoxM :=
  match tb.m_selectionStart with
  | none => tb
  | some startPos =>
    let endPos := tb.m_cursorPosition
    if startPos = endPos then tb
    else
      let s := if startPos > endPos then endPos else startPos
      let e := if startPos > endPos then startPos else endPos
      let tb := { tb with m_cursorPosition := s, m_selectionStart := none }
      remove_text createRects parseRich tb s e

/-- Embedding of `TextBox::clipboard_copy_text()`; the second component is
the clipboard string (`glfwSetClipboardString` writes it, `glfwGetClipboard-
String` reads it; the clipboard is threaded through as a value). -/
def clipboard_copy_text (tb : TextBoxM) (clipboard : List Char) :
    TextBoxM × List Char :=
  match tb.m_selectionStart with
  | none => (tb, clipboard)
  | some startPos =>
    let endPos := tb.m_cursorPosition
    if startPos = endPos then (tb, clipboard)
    else
      let s := if startPos > endPos then endPos else startPos
      let e := if startPos > endPos then startPos else endPos
      (tb, (tb.m_text.drop s).take (e - s))

/-- Embedding of `TextBox::clipboard_cut_text()`. -/
def clipboard_cut_text (tb : TextBoxM) (clipboard : List Char) :
    TextBoxM × List Char :=
  if !tb.m_editable then (tb, clipboard)
  else
    let step := clipboard_copy_text tb clipboard
    (remove_highlighted_text createRects parseRich step.1, step.2)

/-- Embedding of `TextBox::clipboard_paste_text()`. -/
def clipboard_paste_text (tb : TextBoxM) (clipboard : List Char) :
    TextBoxM × List Char :=
  if !tb.m_editable then (tb, clipboard)
  else
    let tb := remove_highlighted_text createRects parseRich tb
    (insert_text createRects parseRich tb clipboard tb.m_cursorPosition, clipboard)

end TextBoxDefs

/-! ## Concrete instances used by witnesses and counterexamples -/

/-- A text box with a stale cached rect list and no font: recomputation would
clear the rect list. -/
def tbStale : TextBoxM :=
  { m_text := ['a'], m_contentText := ['a'], m_font := none, m_textColor := 0,
    m_position := (0, 0), m_size := (0, 0), m_textXAlignment := 0,
    m_textYAlignment := 0, m_textWrapped := false, m_richText := false,
    m_editable := true, m_selectable := true, m_multiLine := false,
    m_cursorPosition := 0, m_selectionStart := none, m_textRects := [7],
    focused := false }

/-- A non-editable text box with a non-empty selection over `"abcd"`
(anchor 3, cursor 1). -/
def tbNE : TextBoxM :=
  { m_text := ['a', 'b', 'c', 'd'], m_contentText := [], m_font := none,
    m_textColor := 0, m_position := (0, 0), m_size := (0, 0),
    m_textXAlignment := 0, m_textYAlignment := 0, m_textWrapped := false,
    m_richText := false, m_editable := false, m_selectable := true,
    m_multiLine := false, m_cursorPosition := 1, m_selectionStart := some 3,
    m_textRects := [], focused := true }

/-- A finished two-paragraph paragraph object over four char units, used by
the `u8bidi_set_line` witnesses. -/
def para6 : U8BiDiPara :=
  { text := [65, 66, 67, 68], length := 4, paraLevel := 0, paraCount := 2,
    direction := UBiDiDirection.UBIDI_LTR, trailingWSStart := 4,
    dirProps := [DirProp.L, DirProp.L, DirProp.L, DirProp.L],
    levels := [0, 0, 0, 0], paras := [2, 4], controlCount := 0,
    reorderingMode := 0, reorderingOptions := 0 }

/-- A finished mixed-direction line over `"abC"` (levels `[0,0,1]`): two
runs, an even run covering logical `[0,2)` and an odd run covering `[2,3)`,
with prefix-summed visual limits `[2, 3]`. -/
def c1line : U8BiDiLine :=
  { text := [65, 66, 67], length := 3, originalLength := 3, resultLength := 3,
    paraLevel := 0, paraCount := 1, direction := UBiDiDirection.UBIDI_MIXED,
    trailingWSStart := 3, dirProps := [DirProp.L, DirProp.L, DirProp.R],
    levels := [0, 0, 1],
    runs := [{ logicalStart := 0, odd := false, visualLimit := 2, insertRemove := 0 },
      { logicalStart := 2, odd := true, visualLimit := 3, insertRemove := 0 }],
    runCount := 2, insertPointsSize := 0, controlCount := 0, flags := 0,
    reorderingMode := 0, reorderingOptions := 0 }

/-- A mixed-direction paragraph `R R L WS` with paraLevel 0 and levels
`[1, 1, 0, 0]`: the run before the trailing whitespace is at paragraph
level, so `setTrailingWSStart` merges it into the trailing-WS region. -/
def para5 : U8BiDiPara :=
  { text := [65, 66, 67, 32], length := 4, paraLevel := 0, paraCount := 1,
    direction := UBiDiDirection.UBIDI_MIXED, trailingWSStart := 4,
    dirProps := [DirProp.R, DirProp.R, DirProp.L, DirProp.WS],
    levels := [1, 1, 0, 0], paras := [4], controlCount := 0,
    reorderingMode := 0, reorderingOptions := 0 }

/-- The line built by `u8bidi_set_line` over the whole of `para5`. -/
def c5line : U8BiDiLine :=
  ((u8bidi_set_line para5 0 4 (some default) UErrorCode.U_ZERO_ERROR).1).getD default

/-- Registry with one fully set-up family (handle 0) whose every weight/style
cell is face 1 and which covers every script; used by the `get_sub_font`
witness. -/
def regC4 : RegistryM :=
  { familyData :=
      [{ lookup := fun _ _ => 1
         linkedFamilies := []
         fallbackFamilies := []
         scripts := fun _ => true
         initialized := true }]
    familiesByName := [("sans", 0)]
    facesByName := [("sans-regular", 1)]
    faceCount := 1 }

/-- Loaded data of face 1: it has every codepoint below 100. -/
def fdC4 : FontDataM := { hasCodepoint := fun c => c < 100 }

/-- Face loader for the `get_sub_font` witness: face 1 loads as `fdC4`,
everything else fails. -/
def fontDataOfC4 : Nat → Nat → Option FontDataM :=
  fun face _ => if face = 1 then some fdC4 else none

/-- An empty registry, used by the `register_family` witness. -/
def regC9 : RegistryM :=
  { familyData := [], familiesByName := [], facesByName := [], faceCount := 0 }

/-- A family-creation request with scripts, linked and fallback families but
a null face array, used by the `register_family` witness. -/
def infoC9 : FontFamilyCreateInfoM :=
  { name := "sans", scriptCodes := [1], linkedFamilies := ["linked"],
    fallbackFamilies := ["fallback"], faces := none }

/-! ## Theorems -/

/-- The recomputation never touches the text buffer itself. -/
theorem recalc_text_m_text (createRects : TextBoxM → List RectM)
    (parseRich : List Char → List Char) (tb : TextBoxM) :
    (recalc_text createRects parseRich tb).m_text = tb.m_text := by
  simp only [recalc_text, recalc_text_internal]
  split_ifs <;> rfl

/-- The text buffer after `set_text` is the argument. -/
theorem set_text_m_text (createRects : TextBoxM → List RectM)
    (parseRich : List Char → List Char) (tb : TextBoxM) (text : List Char) :
    (set_text createRects parseRich tb text).m_text = text := by
  unfold set_text
  rw [recalc_text_m_text]

/-- Claim C7: for every text buffer, every string `s`, and every byte
position `p ≤ len(text)`, `insert_text(s, p)` followed by
`remove_text(p, p + len(s))` restores the original text buffer. -/
theorem insert_remove_roundtrip (createRects : TextBoxM → List RectM)
    (parseRich : List Char → List Char) (tb : TextBoxM) (s : List Char) (p : Nat)
    (hp : p ≤ tb.m_text.length) :
    (remove_text createRects parseRich
      (insert_text createRects parseRich tb s p) p (p + s.length)).m_text =
      tb.m_text := by
  unfold remove_text insert_text
  rw [set_text_m_text]
  dsimp only
  by_cases hlt : p < tb.m_text.length
  · rw [if_pos hlt, set_text_m_text]
    have htake : ((tb.m_text.take p ++ s ++ tb.m_text.drop p).take p) = tb.m_text.take p := by
      rw [List.append_assoc]
      exact List.take_left' (by rw [List.length_take]; omega)
    have hdrop : ((tb.m_text.take p ++ s ++ tb.m_text.drop p).drop (p + s.length)) =
        tb.m_text.drop p := by
      exact List.drop_left' (by rw [List.length_append, List.length_take]; omega)
    rw [htake, hdrop, List.take_append_drop]
  · rw [if_neg hlt, set_text_m_text]
    have hp2 : p = tb.m_text.length := by omega
    rw [List.take_left' hp2.symm,
      List.drop_eq_nil_of_le (by rw [List.length_append]; omega), List.append_nil]

/-- Witness for C7 at a concrete input. -/
theorem insert_remove_roundtrip_witness :
    (1 : Nat) ≤ (['a', 'b'] : List Char).length ∧
      (remove_text (fun _ => []) (fun t => t)
        (insert_text (fun _ => []) (fun t => t)
          { m_text := ['a', 'b'], m_contentText := [], m_font := none, m_textColor := 0,
            m_position := (0, 0), m_size := (0, 0), m_textXAlignment := 0,
            m_textYAlignment := 0, m_textWrapped := false, m_richText := false,
            m_editable := true, m_selectable := true, m_multiLine := false,
            m_cursorPosition := 0, m_selectionStart := none, m_textRects := [],
            focused := false } ['x'] 1) 1 (1 + (['x'] : List Char).length)).m_text =
        ['a', 'b'] :=
  ⟨by decide, insert_remove_roundtrip _ _ _ ['x'] 1 (by decide)⟩

/-- Counterexample to claim C8: `set_multi_line` does not invalidate and
recompute the cached draw-rectangle list — on a box holding a stale rect
list it leaves the list in place, while a recomputation after the field
update would clear it (the box has no font). -/
theorem set_multi_line_no_recalc_cex :
    (set_multi_line tbStale true).m_textRects = [7] ∧
      (recalc_text (fun _ => []) (fun t => t)
        { tbStale with m_multiLine := true }).m_textRects = [] ∧
      set_multi_line tbStale true ≠
        recalc_text (fun _ => []) (fun t => t) { tbStale with m_multiLine := true } := by
  refine ⟨rfl, rfl, ?_⟩
  decide

/-- Claim C8 as amended: of the listed mutators, `set_text`, `set_font`,
`set_position`, `set_size`, `set_text_x_alignment`, `set_text_y_alignment`,
`set_text_wrapped` and `set_rich_text` update their field and recompute the
cached layout/rect list, whereas `set_multi_line`, `set_editable` and
`set_selectable` only update their field without recomputing. -/
theorem textbox_setters_recalc (createRects : TextBoxM → List RectM)
    (parseRich : List Char → List Char) :
    (∀ tb t, set_text createRects parseRich tb t =
      recalc_text createRects parseRich { tb with m_text := t }) ∧
    (∀ tb f, set_font createRects parseRich tb f =
      recalc_text createRects parseRich { tb with m_font := f }) ∧
    (∀ tb x y, set_position createRects parseRich tb x y =
      recalc_text createRects parseRich { tb with m_position := (x, y) }) ∧
    (∀ tb w h, set_size createRects parseRich tb w h =
      recalc_text createRects parseRich { tb with m_size := (w, h) }) ∧
    (∀ tb a, set_text_x_alignment createRects parseRich tb a =
      recalc_text createRects parseRich { tb with m_textXAlignment := a }) ∧
    (∀ tb a, set_text_y_alignment createRects parseRich tb a =
      recalc_text createRects parseRich { tb with m_textYAlignment := a }) ∧
    (∀ tb w, set_text_wrapped createRects parseRich tb w =
      recalc_text createRects parseRich { tb with m_textWrapped := w }) ∧
    (∀ tb r, set_rich_text createRects parseRich tb r =
      recalc_text createRects parseRich { tb with m_richText := r }) ∧
    (∀ tb v, set_multi_line tb v = { tb with m_multiLine := v }) ∧
    (∀ tb v, set_editable tb v = { tb with m_editable := v }) ∧
    (∀ tb v, set_selectable tb v = { tb with m_selectable := v }) := by
  exact ⟨fun _ _ => rfl, fun _ _ => rfl, fun _ _ _ => rfl, fun _ _ _ => rfl,
    fun _ _ => rfl, fun _ _ => rfl, fun _ _ => rfl, fun _ _ => rfl,
    fun _ _ => rfl, fun _ _ => rfl, fun _ _ => rfl⟩

/-- Claim C10: on a non-editable text box, `clipboard_cut_text` and
`clipboard_paste_text` change neither the text box (text, cursor, selection)
nor the clipboard, while `clipboard_copy_text` — with a valid, non-empty
selection — copies the selected substring to the clipboard regardless of the
editable flag, leaving the box unchanged. -/
theorem clipboard_cut_copy_paste (createRects : TextBoxM → List RectM)
    (parseRich : List Char → List Char) :
    (∀ tb clip, tb.m_editable = false →
      clipboard_cut_text createRects parseRich tb clip = (tb, clip) ∧
      clipboard_paste_text createRects parseRich tb clip = (tb, clip)) ∧
    (∀ tb clip s, tb.m_selectionStart = some s → s ≠ tb.m_cursorPosition →
      clipboard_copy_text tb clip =
        (tb, (tb.m_text.drop (min s tb.m_cursorPosition)).take
          (max s tb.m_cursorPosition - min s tb.m_cursorPosition))) := by
  constructor
  · intro tb clip hed
    constructor
    · unfold clipboard_cut_text
      rw [hed]
      rfl
    · unfold clipboard_paste_text
      rw [hed]
      rfl
  · intro tb clip s hsel hne
    unfold clipboard_copy_text
    rw [hsel]
    simp only [if_neg hne]
    by_cases hgt : s > tb.m_cursorPosition
    · rw [if_pos hgt, if_pos hgt]
      have h1 : min s tb.m_cursorPosition = tb.m_cursorPosition := by omega
      have h2 : max s tb.m_cursorPosition = s := by omega
      rw [h1, h2]
    · rw [if_neg hgt, if_neg hgt]
      have h1 : min s tb.m_cursorPosition = s := by omega
      have h2 : max s tb.m_cursorPosition = tb.m_cursorPosition := by omega
      rw [h1, h2]

/-- Witness for C10 at a concrete input: a non-editable box with selection
anchor 3 and cursor 1 over `"abcd"`. -/
theorem clipboard_cut_copy_paste_witness :
    tbNE.m_editable = false ∧
      (clipboard_cut_text (fun _ => []) (fun t => t) tbNE ['q'] = (tbNE, ['q']) ∧
        clipboard_paste_text (fun _ => []) (fun t => t) tbNE ['q'] = (tbNE, ['q'])) ∧
      tbNE.m_selectionStart = some 3 ∧ (3 : Nat) ≠ tbNE.m_cursorPosition ∧
      clipboard_copy_text tbNE ['q'] =
        (tbNE, (tbNE.m_text.drop (min 3 tbNE.m_cursorPosition)).take
          (max 3 tbNE.m_cursorPosition - min 3 tbNE.m_cursorPosition)) :=
  ⟨rfl,
    (clipboard_cut_copy_paste (fun _ => []) (fun t => t)).1 tbNE ['q'] rfl,
    rfl, by decide,
    (clipboard_cut_copy_paste (fun _ => []) (fun t => t)).2 tbNE ['q'] 3 rfl (by decide)⟩

/-- Claim C6: `u8bidi_set_line` called with a fresh error code and a range
crossing a paragraph boundary, a negative or out-of-order index, or a null
output line surfaces `U_ILLEGAL_ARGUMENT_ERROR` and leaves the output line
object untouched (the paragraph object is never written: the source takes it
through a `const` pointer, and the embedding never returns a modified
paragraph). -/
theorem set_line_invalid_args (pParaBiDi : U8BiDiPara) (start limit : Int)
    (pLineBiDi : Option U8BiDiLine)
    (hbad : start < 0 ∨ limit < start ∨ limit > pParaBiDi.length + 1 ∨
      pLineBiDi = none ∨
      paraIndexOf pParaBiDi start ≠ paraIndexOf pParaBiDi (limit - 1)) :
    u8bidi_set_line pParaBiDi start limit pLineBiDi UErrorCode.U_ZERO_ERROR =
      (pLineBiDi, UErrorCode.U_ILLEGAL_ARGUMENT_ERROR) := by
  unfold u8bidi_set_line
  rw [if_neg (by simp [U_FAILURE])]
  by_cases h1 : start < 0 ∨ start ≥ limit
  · rw [if_pos h1]
  rw [if_neg h1]
  by_cases h2 : limit < 0 ∨ limit ≥ pParaBiDi.length + 1
  · rw [if_pos h2]
  rw [if_neg h2]
  match pLineBiDi with
  | none => rfl
  | some oldLine =>
    have hcross : paraIndexOf pParaBiDi start ≠ paraIndexOf pParaBiDi (limit - 1) := by
      rcases hbad with h | h | h | h | h
      · omega
      · omega
      · omega
      · exact absurd h (by simp)
      · exact h
    simp only [if_pos hcross]

/-- Witness for C6 at a concrete input (negative start index). -/
theorem set_line_invalid_args_witness :
    ((-1 : Int) < 0 ∨ (3 : Int) < -1 ∨ (3 : Int) > para6.length + 1 ∨
        (some (default : U8BiDiLine)) = none ∨
        paraIndexOf para6 (-1) ≠ paraIndexOf para6 (3 - 1)) ∧
      u8bidi_set_line para6 (-1) 3 (some default) UErrorCode.U_ZERO_ERROR =
        (some default, UErrorCode.U_ILLEGAL_ARGUMENT_ERROR) :=
  ⟨Or.inl (by decide),
    set_line_invalid_args para6 (-1) 3 (some default) (Or.inl (by decide))⟩

/-- Second loop of `get_sub_font`: when the chosen data has every remaining
codepoint, the iterator is exhausted and `offset` becomes `limit`. -/
theorem gsfExtent_all (fontData : FontDataM) (offset limit : Nat)
    (cps : List (Nat × Nat)) (hall : ∀ p ∈ cps, fontData.hasCodepoint p.2 = true) :
    gsfExtent fontData offset limit cps = limit := by
  induction cps with
  | nil => rfl
  | cons p rest ih =>
    unfold gsfExtent
    rw [hall p (by simp)]
    exact ih (fun q hq => hall q (by simp [hq]))

/-- Claim C4: when the resolved base face is valid, its data loads, and it
has a glyph for every codepoint of the range, `get_sub_font` advances
`offset` to `limit` and returns the single span `{baseFace, size}` covering
the whole range.  `cps` is the `(relative native index, codepoint)` sequence
of `text[offset, limit)`. -/
theorem get_sub_font_base_coverage (reg : RegistryM)
    (fontDataOf : Nat → Nat → Option FontDataM) (font : FontM)
    (cps : List (Nat × Nat)) (offset limit script : Nat) (fd : FontDataM)
    (hbase : get_font_for_script reg font.family font.weight font.style script ≠ 0)
    (hload : fontDataOf
      (get_font_for_script reg font.family font.weight font.style script)
      font.size = some fd)
    (hall : ∀ p ∈ cps, fd.hasCodepoint p.2 = true) :
    get_sub_font reg fontDataOf font cps offset limit script =
      (limit,
        { face := get_font_for_script reg font.family font.weight font.style script,
          size := font.size }) := by
  unfold get_sub_font
  cases cps with
  | nil => rfl
  | cons p rest =>
    have hfind : find_compatible_font reg fontDataOf font p.2
        (get_font_for_script reg font.family font.weight font.style script)
        (reg.fam font.family).fallbackFamilies =
        some (get_font_for_script reg font.family font.weight font.style script, fd) := by
      unfold find_compatible_font
      rw [if_neg hbase, hload]
      simp only [hall p (by simp), if_pos]
    simp only [gsfFirst, hfind]
    rw [gsfExtent_all fd offset limit rest (fun q hq => hall q (by simp [hq]))]

/-- Witness for C4 at a concrete input: family 0 resolves to face 1, which
covers the codepoints 65 and 66 of the two-codepoint range [5, 7). -/
theorem get_sub_font_base_coverage_witness :
    get_font_for_script regC4 0 0 0 3 ≠ 0 ∧
      fontDataOfC4 (get_font_for_script regC4 0 0 0 3) 12 = some fdC4 ∧
      (∀ p ∈ ([(0, 65), (1, 66)] : List (Nat × Nat)), fdC4.hasCodepoint p.2 = true) ∧
      get_sub_font regC4 fontDataOfC4 { family := 0, size := 12, weight := 0, style := 0 }
        [(0, 65), (1, 66)] 5 7 3 =
        (7, { face := get_font_for_script regC4 0 0 0 3, size := 12 }) :=
  ⟨by decide, rfl, by decide,
    get_sub_font_base_coverage regC4 fontDataOfC4
      { family := 0, size := 12, weight := 0, style := 0 } [(0, 65), (1, 66)] 5 7 3 fdC4
      (by decide) rfl (by decide)⟩

/-- Writing a family record preserves the table size. -/
theorem setFam_length (reg : RegistryM) (i : Nat) (f : FamilyDataM → FamilyDataM) :
    (reg.setFam i f).familyData.length = reg.familyData.length := by
  simp [RegistryM.setFam]

/-- Reading back a family record just written. -/
theorem setFam_fam_eq (reg : RegistryM) (i : Nat) (f : FamilyDataM → FamilyDataM)
    (h : i < reg.familyData.length) :
    (reg.setFam i f).fam i = f (reg.fam i) := by
  simp [RegistryM.setFam, RegistryM.fam, List.getD, List.getElem?_set_self, h]

/-- `get_or_add_family` never shrinks the family table. -/
theorem get_or_add_family_length (reg : RegistryM) (name : String) :
    reg.familyData.length ≤ (get_or_add_family reg name).1.familyData.length := by
  unfold get_or_add_family
  cases h : reg.familiesByName.find? (fun p => p.1 = name) with
  | some p => simp
  | none => simp

/-- `get_or_add_family` leaves existing family records unchanged. -/
theorem get_or_add_family_fam (reg : RegistryM) (name : String) (j : Nat)
    (h : j < reg.familyData.length) :
    (get_or_add_family reg name).1.fam j = reg.fam j := by
  unfold get_or_add_family
  cases hf : reg.familiesByName.find? (fun p => p.1 = name) with
  | some p => rfl
  | none =>
    simp only [RegistryM.fam]
    simp [List.getD, List.getElem?_append, h]

/-- On a well-formed registry, `get_or_add_family` returns an in-range
handle. -/
theorem get_or_add_family_lt (reg : RegistryM) (name : String) (hwf : RegWF reg) :
    (get_or_add_family reg name).2 < (get_or_add_family reg name).1.familyData.length := by
  unfold get_or_add_family
  cases hf : reg.familiesByName.find? (fun p => p.1 = name) with
  | some p =>
    exact hwf p (List.mem_of_find?_eq_some hf)
  | none =>
    simp

/-- The linked/fallback loop keeps the family handle in range and never
flips the `initialized` flag when the record writer does not. -/
theorem addFamilyRefs_initialized (names : List String) (reg : RegistryM) (fam : Nat)
    (write : FamilyDataM → Nat → FamilyDataM)
    (hw : ∀ fd h, (write fd h).initialized = fd.initialized)
    (hfam : fam < reg.familyData.length) :
    fam < (addFamilyRefs reg fam names write).familyData.length ∧
      ((addFamilyRefs reg fam names write).fam fam).initialized =
        (reg.fam fam).initialized := by
  induction names generalizing reg with
  | nil => exact ⟨hfam, rfl⟩
  | cons name rest ih =>
    unfold addFamilyRefs
    have hlt : fam < (get_or_add_family reg name).1.familyData.length :=
      lt_of_lt_of_le hfam (get_or_add_family_length reg name)
    have hlt2 : fam <
        ((get_or_add_family reg name).1.setFam fam
          (fun fd => write fd (get_or_add_family reg name).2)).familyData.length := by
      rw [setFam_length]; exact hlt
    obtain ⟨h1, h2⟩ := ih _ hlt2
    refine ⟨h1, ?_⟩
    rw [h2, setFam_fam_eq _ _ _ hlt, hw, get_or_add_family_fam _ _ _ hfam]

/-- Claim C9: `register_family` on a not-yet-initialized family with a null
face array reverts the family record to the uninitialized state — the script
set, linked-family list and fallback-family list written earlier in the call
are cleared and the `initialized` flag stays `false` — and returns
`NO_FACES`. -/
theorem register_family_no_faces_reverts (reg : RegistryM)
    (info : FontFamilyCreateInfoM) (hwf : RegWF reg) (hfaces : info.faces = none)
    (huninit : ((get_or_add_family reg info.name).1.fam
      (get_or_add_family reg info.name).2).initialized = false) :
    (register_family reg info).2 = FontRegistryError.NO_FACES ∧
      ((register_family reg info).1.fam
        (get_or_add_family reg info.name).2).initialized = false ∧
      ((register_family reg info).1.fam
        (get_or_add_family reg info.name).2).linkedFamilies = [] ∧
      ((register_family reg info).1.fam
        (get_or_add_family reg info.name).2).fallbackFamilies = [] ∧
      ∀ c, ((register_family reg info).1.fam
        (get_or_add_family reg info.name).2).scripts c = false := by
  unfold register_family
  simp only [if_neg (by simp [huninit] :
    ¬((get_or_add_family reg info.name).1.fam
      (get_or_add_family reg info.name).2).initialized = true), hfaces]
  set fam := (get_or_add_family reg info.name).2 with hfamdef
  set reg1 := (get_or_add_family reg info.name).1 with hreg1def
  have hfam1 : fam < reg1.familyData.length := get_or_add_family_lt reg info.name hwf
  set reg2 :=
    (if info.scriptCodes.length > 0 then
      reg1.setFam fam (fun fd =>
        { fd with scripts := fun c => fd.scripts c || c ∈ info.scriptCodes })
    else
      reg1.setFam fam (fun fd => { fd with scripts := fun _ => true })) with hreg2def
  have hfam2 : fam < reg2.familyData.length := by
    rw [hreg2def]
    split <;> (rw [setFam_length]; exact hfam1)
  have hinit2 : (reg2.fam fam).initialized = false := by
    rw [hreg2def]
    split <;> (rw [setFam_fam_eq _ _ _ hfam1]; exact huninit)
  set reg3 := addFamilyRefs reg2 fam info.linkedFamilies
    (fun fd h => { fd with linkedFamilies := fd.linkedFamilies ++ [h] }) with hreg3def
  obtain ⟨hfam3, hinit3⟩ := addFamilyRefs_initialized info.linkedFamilies reg2 fam
    (fun fd h => { fd with linkedFamilies := fd.linkedFamilies ++ [h] })
    (fun _ _ => rfl) hfam2
  set reg4 := addFamilyRefs reg3 fam info.fallbackFamilies
    (fun fd h => { fd with fallbackFamilies := fd.fallbackFamilies ++ [h] }) with hreg4def
  obtain ⟨hfam4, hinit4⟩ := addFamilyRefs_initialized info.fallbackFamilies reg3 fam
    (fun fd h => { fd with fallbackFamilies := fd.fallbackFamilies ++ [h] })
    (fun _ _ => rfl) hfam3
  refine ⟨trivial, ?_, ?_, ?_, ?_⟩
  · rw [setFam_fam_eq _ _ _ hfam4]
    rw [hinit4, hinit3]
    exact hinit2
  · rw [setFam_fam_eq _ _ _ hfam4]
  · rw [setFam_fam_eq _ _ _ hfam4]
  · intro c
    rw [setFam_fam_eq _ _ _ hfam4]

/-- Witness for C9 at a concrete input: registering a family with scripts,
links and fallbacks but no faces into an empty registry. -/
theorem register_family_no_faces_reverts_witness :
    RegWF regC9 ∧ infoC9.faces = none ∧
      ((get_or_add_family regC9 infoC9.name).1.fam
        (get_or_add_family regC9 infoC9.name).2).initialized = false ∧
      (register_family regC9 infoC9).2 = FontRegistryError.NO_FACES ∧
      ((register_family regC9 infoC9).1.fam
        (get_or_add_family regC9 infoC9.name).2).initialized = false ∧
      ((register_family regC9 infoC9).1.fam
        (get_or_add_family regC9 infoC9.name).2).linkedFamilies = [] ∧
      ((register_family regC9 infoC9).1.fam
        (get_or_add_family regC9 infoC9.name).2).fallbackFamilies = [] ∧
      ((register_family regC9 infoC9).1.fam
        (get_or_add_family regC9 infoC9.name).2).scripts 1 = false := by
  have h := register_family_no_faces_reverts regC9 infoC9
    (by intro p hp; simp [regC9] at hp) rfl rfl
  exact ⟨by intro p hp; simp [regC9] at hp, rfl, rfl, h.1, h.2.1, h.2.2.1, h.2.2.2.1,
    h.2.2.2.2 1⟩

/-- Strict monotonicity of `getD` access on a strictly sorted list. -/
theorem sorted_getD_lt (limits : List Int) (hs : List.Sorted (· < ·) limits)
    (j k : Nat) (hjk : j < k) (hk : k < limits.length) :
    limits.getD j 0 < limits.getD k 0 := by
  have hj : j < limits.length := by omega
  rw [show limits.getD j 0 = limits[j] by simp [List.getD, List.getElem?_eq_getElem hj],
    show limits.getD k 0 = limits[k] by simp [List.getD, List.getElem?_eq_getElem hk]]
  exact List.pairwise_iff_get.mp hs ⟨j, hj⟩ ⟨k, hk⟩ hjk

/-- Monotonicity of `getD` access on a strictly sorted list. -/
theorem sorted_getD_le (limits : List Int) (hs : List.Sorted (· < ·) limits)
    (j k : Nat) (hjk : j ≤ k) (hk : k < limits.length) :
    limits.getD j 0 ≤ limits.getD k 0 := by
  rcases Nat.lt_or_ge j k with h | h
  · exact le_of_lt (sorted_getD_lt limits hs j k h hk)
  · have : j = k := by omega
    rw [this]

/-- `countLE` vanishes when every limit exceeds the index. -/
theorem countLE_eq_zero (limits : List Int) (index : Int)
    (h : ∀ y ∈ limits, index < y) : countLE limits index = 0 := by
  induction limits with
  | nil => rfl
  | cons x ls ih =>
    unfold countLE
    rw [if_neg (by have := h x (by simp); omega)]
    exact ih (fun y hy => h y (by simp [hy]))

/-- `countLE` never exceeds the list length. -/
theorem countLE_le_length (limits : List Int) (index : Int) :
    countLE limits index ≤ limits.length := by
  induction limits with
  | nil => exact Nat.le_refl 0
  | cons x ls ih =>
    unfold countLE
    split <;> (simp only [List.length_cons]; omega)

/-- On a sorted list every limit before slot `countLE` is at most the index. -/
theorem countLE_before (limits : List Int) (index : Int)
    (hs : List.Sorted (· < ·) limits) :
    ∀ k, k < countLE limits index → limits.getD k 0 ≤ index := by
  induction limits with
  | nil => intro k hk; simp [countLE] at hk
  | cons x ls ih =>
    rw [List.sorted_cons] at hs
    intro k hk
    by_cases hx : x ≤ index
    · rw [countLE, if_pos hx] at hk
      match k with
      | 0 => simpa using hx
      | k + 1 =>
        rw [List.getD_cons_succ]
        exact ih hs.2 k (by omega)
    · rw [countLE, if_neg hx,
        countLE_eq_zero ls index (fun y hy => by have := hs.1 y hy; omega)] at hk
      omega

/-- On a sorted list the limit at slot `countLE` (when it exists) exceeds the
index: together with `countLE_before` this identifies the run containing the
index. -/
theorem countLE_at (limits : List Int) (index : Int)
    (hs : List.Sorted (· < ·) limits) (hlt : countLE limits index < limits.length) :
    index < limits.getD (countLE limits index) 0 := by
  induction limits with
  | nil => simp at hlt
  | cons x ls ih =>
    rw [List.sorted_cons] at hs
    by_cases hx : x ≤ index
    · rw [countLE, if_pos hx] at hlt ⊢
      rw [List.getD_cons_succ]
      exact ih hs.2 (by simpa using hlt)
    · rw [countLE, if_neg hx,
        countLE_eq_zero ls index (fun y hy => by have := hs.1 y hy; omega)] at hlt ⊢
      simpa using by omega

/-- The characterizing properties of the run slot are unique on a sorted
list. -/
theorem run_slot_unique (limits : List Int) (index : Int) (r1 r2 : Nat)
    (h1a : ∀ k, k < r1 → limits.getD k 0 ≤ index)
    (h1b : r1 < limits.length → index < limits.getD r1 0) (h1c : r1 ≤ limits.length)
    (h2a : ∀ k, k < r2 → limits.getD k 0 ≤ index)
    (h2b : r2 < limits.length → index < limits.getD r2 0) (h2c : r2 ≤ limits.length) :
    r1 = r2 := by
  rcases Nat.lt_trichotomy r1 r2 with h | h | h
  · have hx := h2a r1 h
    have hy := h1b (by omega)
    omega
  · exact h
  · have hx := h1a r2 h
    have hy := h2b (by omega)
    omega

/-- Invariant correctness of the lower-bound binary-search loop of
`ValueRuns::get_run_index`. -/
theorem get_run_index_loop_inv (limits : List Int) (index : Int)
    (hs : List.Sorted (· < ·) limits) :
    ∀ count first, first + count ≤ limits.length →
      (∀ k, k < first → limits.getD k 0 ≤ index) →
      (∀ k, first + count ≤ k → k < limits.length → index < limits.getD k 0) →
      (∀ k, k < get_run_index_loop limits index first count →
        limits.getD k 0 ≤ index) ∧
      (get_run_index_loop limits index first count < limits.length →
        index < limits.getD (get_run_index_loop limits index first count) 0) ∧
      get_run_index_loop limits index first count ≤ limits.length := by
  intro count
  induction count using Nat.strong_induction_on with
  | _ count ih =>
    intro first hbound h1 h2
    rw [get_run_index_loop]
    by_cases hc : count > 0
    · rw [if_pos hc]
      simp only
      by_cases hle : limits.getD (first + count / 2) 0 ≤ index
      · rw [if_pos hle]
        refine ih (count - count / 2 - 1) (by omega) (first + count / 2 + 1)
          (by omega) ?_ (fun k hk1 hk2 => h2 k (by omega) hk2)
        intro k hk
        rcases Nat.lt_or_ge k first with h | h
        · exact h1 k h
        · calc limits.getD k 0 ≤ limits.getD (first + count / 2) 0 :=
                sorted_getD_le limits hs k (first + count / 2) (by omega) (by omega)
            _ ≤ index := hle
      · rw [if_neg hle]
        refine ih (count / 2) (by omega) first (by omega) h1 ?_
        intro k hk1 hk2
        calc index < limits.getD (first + count / 2) 0 := by omega
          _ ≤ limits.getD k 0 := sorted_getD_le limits hs (first + count / 2) k hk1 hk2
    · rw [if_neg hc]
      have hc0 : count = 0 := by omega
      exact ⟨h1, fun h => h2 first (by omega) h, by omega⟩

/-- The binary search of `get_run_index` computes `countLE` on a sorted
limits list. -/
theorem get_run_index_loop_eq_countLE (limits : List Int) (index : Int)
    (hs : List.Sorted (· < ·) limits) :
    get_run_index_loop limits index 0 limits.length = countLE limits index := by
  obtain ⟨h1, h2, h3⟩ := get_run_index_loop_inv limits index hs limits.length 0
    (by omega) (fun k hk => absurd hk (by omega)) (fun k hk1 hk2 => absurd hk1 (by omega))
  exact run_slot_unique limits index _ _ h1 h2 h3 (countLE_before limits index hs)
    (countLE_at limits index hs) (countLE_le_length limits index)

/-- `get_value` through `countLE` on a sorted store. -/
theorem get_value_eq_countLE {T : Type} [Inhabited T] (vr : ValueRuns T) (index : Int)
    (hs : List.Sorted (· < ·) vr.m_limits) :
    vr.get_value index = vr.m_values.getD (countLE vr.m_limits index) default := by
  unfold ValueRuns.get_value ValueRuns.get_run_index
  rw [get_run_index_loop_eq_countLE _ _ hs]

/-- Unfolding equation of `countLE` on a cons cell. -/
theorem countLE_cons (l : Int) (ls : List Int) (index : Int) :
    countLE (l :: ls) index =
      if l ≤ index then countLE ls index + 1 else countLE ls index := rfl

/-- Unfolding equation of `subsetSkip` on cons cells. -/
theorem subsetSkip_cons {T : Type} (l : Int) (ls : List Int) (v : T) (vs : List T)
    (offset : Int) :
    subsetSkip (l :: ls) (v :: vs) offset =
      if l < offset then subsetSkip ls vs offset else (l :: ls, v :: vs) := rfl

/-- Unfolding equation of `subsetEmit` on cons cells. -/
theorem subsetEmit_cons {T : Type} (l : Int) (ls : List Int) (v : T) (vs : List T)
    (offset length : Int) (out : ValueRuns T) :
    subsetEmit (l :: ls) (v :: vs) offset length out =
      if l - offset < length then subsetEmit ls vs offset length (out.add (l - offset) v)
      else out.add length v := rfl

/-- The emit loop appends to the output runs: its result is the accumulator
followed by what it would emit into an empty output. -/
theorem subsetEmit_out {T : Type} (ls : List Int) (vs : List T) (offset length : Int)
    (out : ValueRuns T) :
    subsetEmit ls vs offset length out =
      ⟨out.m_values ++ (subsetEmit ls vs offset length ⟨[], []⟩).m_values,
        out.m_limits ++ (subsetEmit ls vs offset length ⟨[], []⟩).m_limits⟩ := by
  induction ls generalizing vs out with
  | nil => cases vs <;> simp [subsetEmit]
  | cons l ls ih =>
    cases vs with
    | nil => simp [subsetEmit]
    | cons v vs =>
      unfold subsetEmit
      by_cases h : l - offset < length
      · rw [if_pos h, if_pos h, ih vs (ValueRuns.add _ (l - offset) v),
          ih vs (ValueRuns.add ⟨[], []⟩ (l - offset) v)]
        simp [ValueRuns.add]
      · rw [if_neg h, if_neg h]
        simp [ValueRuns.add]

/-- Every limit emitted into an empty output is either the clamp `length` or
a rebased source limit that stayed below `length`. -/
theorem subsetEmit_mem {T : Type} (ls : List Int) (vs : List T) (offset length : Int) :
    ∀ x ∈ (subsetEmit ls vs offset length ⟨[], []⟩).m_limits,
      x = length ∨ ∃ l ∈ ls, x = l - offset ∧ x < length := by
  induction ls generalizing vs with
  | nil => cases vs <;> (intro x hx; simp [subsetEmit] at hx)
  | cons l ls ih =>
    intro x hx
    cases vs with
    | nil => simp [subsetEmit] at hx
    | cons v vs =>
      rw [subsetEmit_cons] at hx
      by_cases h : l - offset < length
      · rw [if_pos h, subsetEmit_out] at hx
        simp only [ValueRuns.add, List.nil_append, List.cons_append,
          List.mem_cons, List.mem_append] at hx
        rcases hx with hx | hx
        · exact Or.inr ⟨l, by simp, hx, by omega⟩
        · rcases ih vs x hx with h1 | ⟨l2, hl2, he, hlt⟩
          · exact Or.inl h1
          · exact Or.inr ⟨l2, by simp [hl2], he, hlt⟩
      · rw [if_neg h] at hx
        simp [ValueRuns.add] at hx
        exact Or.inl hx

/-- The skip loop returns a suffix of a sorted limits list, hence sorted. -/
theorem subsetSkip_fst_sorted {T : Type} (ls : List Int) (vs : List T) (offset : Int)
    (hs : List.Sorted (· < ·) ls) :
    List.Sorted (· < ·) (subsetSkip ls vs offset).1 := by
  induction ls generalizing vs with
  | nil => cases vs <;> exact List.sorted_nil
  | cons l ls ih =>
    cases vs with
    | nil => exact hs
    | cons v vs =>
      rw [subsetSkip_cons]
      by_cases h : l < offset
      · rw [if_pos h]
        exact ih vs (List.sorted_cons.mp hs).2
      · rw [if_neg h]
        exact hs

/-- The emitted limits are strictly increasing when the source limits are. -/
theorem subsetEmit_sorted {T : Type} (ls : List Int) (vs : List T) (offset length : Int)
    (hs : List.Sorted (· < ·) ls) :
    List.Sorted (· < ·) (subsetEmit ls vs offset length ⟨[], []⟩).m_limits := by
  induction ls generalizing vs with
  | nil => cases vs <;> simp [subsetEmit]
  | cons l ls ih =>
    cases vs with
    | nil => simp [subsetEmit]
    | cons v vs =>
      rw [List.sorted_cons] at hs
      rw [subsetEmit_cons]
      by_cases h : l - offset < length
      · rw [if_pos h, subsetEmit_out]
        simp only [ValueRuns.add, List.nil_append, List.cons_append]
        rw [List.sorted_cons]
        refine ⟨?_, ih vs hs.2⟩
        intro b hb
        rcases subsetEmit_mem ls vs offset length b hb with h1 | ⟨l2, hl2, he, _⟩
        · omega
        · have := hs.1 l2 hl2
          omega
      · rw [if_neg h]
        simp [ValueRuns.add]

/-- The skip loop is the identity when no limit falls below `offset`. -/
theorem subsetSkip_eq_self {T : Type} (ls : List Int) (vs : List T) (offset : Int)
    (h : ∀ x ∈ ls, ¬x < offset) : subsetSkip ls vs offset = (ls, vs) := by
  cases ls with
  | nil => cases vs <;> rfl
  | cons l ls =>
    cases vs with
    | nil => rfl
    | cons v vs =>
      unfold subsetSkip
      rw [if_neg (h l (by simp))]

/-- Point/subset agreement through `countLE`: the value the subset stores at
`i - offset` is the value the original store holds at `i`. -/
theorem subset_countLE_agree {T : Type} [Inhabited T] (limits : List Int)
    (values : List T) (offset length i : Int) (hs : List.Sorted (· < ·) limits)
    (hlen : values.length = limits.length) (hi1 : offset ≤ i)
    (hi2 : i < offset + length) (hlast : ∃ l ∈ limits, offset + length ≤ l) :
    ((subsetEmit (subsetSkip limits values offset).1 (subsetSkip limits values offset).2
        offset length ⟨[], []⟩).m_values).getD
      (countLE (subsetEmit (subsetSkip limits values offset).1
        (subsetSkip limits values offset).2 offset length ⟨[], []⟩).m_limits
        (i - offset)) default =
      values.getD (countLE limits i) default := by
  induction limits generalizing values with
  | nil =>
    obtain ⟨l, hl, _⟩ := hlast
    simp at hl
  | cons l ls ih =>
    cases values with
    | nil => simp at hlen
    | cons v vs =>
      have hlen2 : vs.length = ls.length := by simpa using hlen
      rw [List.sorted_cons] at hs
      by_cases hskip : l < offset
      · have e1 : subsetSkip (l :: ls) (v :: vs) offset = subsetSkip ls vs offset := by
          rw [subsetSkip_cons, if_pos hskip]
        have e2 : countLE (l :: ls) i = countLE ls i + 1 := by
          rw [countLE_cons, if_pos (by omega)]
        rw [e1, e2, List.getD_cons_succ]
        refine ih vs hs.2 hlen2 ?_
        obtain ⟨l2, hl2, hge⟩ := hlast
        rcases List.mem_cons.mp hl2 with he | hm
        · exfalso
          omega
        · exact ⟨l2, hm, hge⟩
      · have e1 : subsetSkip (l :: ls) (v :: vs) offset = (l :: ls, v :: vs) := by
          rw [subsetSkip_cons, if_neg hskip]
        rw [e1]
        by_cases hle : l ≤ i
        · have hlt : l - offset < length := by omega
          have e2 : subsetEmit (l :: ls) (v :: vs) offset length ⟨[], []⟩ =
              ⟨v :: (subsetEmit ls vs offset length ⟨[], []⟩).m_values,
                (l - offset) :: (subsetEmit ls vs offset length ⟨[], []⟩).m_limits⟩ := by
            rw [subsetEmit_cons, if_pos hlt, subsetEmit_out]
            simp [ValueRuns.add]
          rw [e2]
          have e3 : countLE ((l - offset) ::
              (subsetEmit ls vs offset length ⟨[], []⟩).m_limits) (i - offset) =
              countLE (subsetEmit ls vs offset length ⟨[], []⟩).m_limits (i - offset)
                + 1 := by
            rw [countLE_cons, if_pos (by omega)]
          have e4 : countLE (l :: ls) i = countLE ls i + 1 := by
            rw [countLE_cons, if_pos hle]
          simp only [e3, e4, List.getD_cons_succ]
          have e5 : subsetSkip ls vs offset = (ls, vs) :=
            subsetSkip_eq_self ls vs offset (fun x hx => by have := hs.1 x hx; omega)
          have hind := ih vs hs.2 hlen2 ?_
          · rw [e5] at hind
            exact hind
          · obtain ⟨l2, hl2, hge⟩ := hlast
            rcases List.mem_cons.mp hl2 with he | hm
            · exfalso
              omega
            · exact ⟨l2, hm, hge⟩
        · have hz1 : countLE ls i = 0 :=
            countLE_eq_zero ls i (fun y hy => by have := hs.1 y hy; omega)
          have e4 : countLE (l :: ls) i = 0 := by
            rw [countLE_cons, if_neg hle, hz1]
          rw [e4]
          by_cases hlt : l - offset < length
          · have e2 : subsetEmit (l :: ls) (v :: vs) offset length ⟨[], []⟩ =
                ⟨v :: (subsetEmit ls vs offset length ⟨[], []⟩).m_values,
                  (l - offset) :: (subsetEmit ls vs offset length ⟨[], []⟩).m_limits⟩ := by
              rw [subsetEmit_cons, if_pos hlt, subsetEmit_out]
              simp [ValueRuns.add]
            rw [e2]
            have e3 : countLE ((l - offset) ::
                (subsetEmit ls vs offset length ⟨[], []⟩).m_limits) (i - offset) = 0 := by
              rw [countLE_cons, if_neg (by omega)]
              refine countLE_eq_zero _ _ ?_
              intro y hy
              rcases subsetEmit_mem ls vs offset length y hy with h1 | ⟨l2, hl2, he, _⟩
              · omega
              · have := hs.1 l2 hl2
                omega
            rw [e3]
            rfl
          · have e2 : subsetEmit (l :: ls) (v :: vs) offset length ⟨[], []⟩ =
                ⟨[v], [length]⟩ := by
              unfold subsetEmit
              rw [if_neg hlt]
              rfl
            rw [e2]
            have e3 : countLE [length] (i - offset) = 0 := by
              unfold countLE
              rw [if_neg (by omega)]
              rfl
            rw [e3]
            rfl

/-- Claim C3: for a `ValueRuns` built from strictly increasing limits and any
window `[offset, offset+length)` inside its domain, the subset produced by
`get_runs_subset` stores at `i - offset` exactly the value the original
store holds at `i`, for every `i` in the window. -/
theorem valueruns_subset_point {T : Type} [Inhabited T] (vr : ValueRuns T)
    (offset length i : Int) (hs : List.Sorted (· < ·) vr.m_limits)
    (hlen : vr.m_values.length = vr.m_limits.length) (hne : vr.m_limits ≠ [])
    (hdom : offset + length ≤ vr.m_limits.getLast hne) (hoff : 0 ≤ offset)
    (hi1 : offset ≤ i) (hi2 : i < offset + length) :
    (vr.get_runs_subset offset length ⟨[], []⟩).get_value (i - offset) =
      vr.get_value i := by
  have hlast : ∃ l ∈ vr.m_limits, offset + length ≤ l :=
    ⟨_, List.getLast_mem hne, hdom⟩
  unfold ValueRuns.get_runs_subset
  rw [get_value_eq_countLE _ _ hs,
    get_value_eq_countLE _ _
      (subsetEmit_sorted _ _ offset length (subsetSkip_fst_sorted _ _ offset hs))]
  exact subset_countLE_agree vr.m_limits vr.m_values offset length i hs hlen hi1 hi2 hlast

/-- Witness for C3 at a concrete input: runs `[10, 20) ↦ 5, [20, 30) ↦ 6`
restricted to the window `[15, 27)`, probed at `i = 21`. -/
theorem valueruns_subset_point_witness :
    List.Sorted (· < ·) ([20, 30] : List Int) ∧
      ((⟨[5, 6], [20, 30]⟩ : ValueRuns Nat).get_runs_subset 15 12
        ⟨[], []⟩).get_value (21 - 15) = (⟨[5, 6], [20, 30]⟩ : ValueRuns Nat).get_value 21 :=
  ⟨by decide,
    valueruns_subset_point (⟨[5, 6], [20, 30]⟩ : ValueRuns Nat) 15 12 21
      (by simp) (by decide) (by decide) (by decide) (by decide) (by decide) (by decide)⟩

/-- Unfolding equation of `levScanBack` at a successor. -/
theorem levScanBack_succ (levels : List Int) (paraLevel : Int) (s : Nat) :
    levScanBack levels paraLevel (s + 1) =
      if levels.getD s 0 = paraLevel then levScanBack levels paraLevel s else s + 1 := rfl

/-- The merge scan only moves backwards. -/
theorem levScanBack_le (levels : List Int) (paraLevel : Int) :
    ∀ n, levScanBack levels paraLevel n ≤ n := by
  intro n
  induction n with
  | zero => exact Nat.le_refl 0
  | succ n ih =>
    unfold levScanBack
    split
    · omega
    · omega

/-- Every index the merge scan crossed carries the paragraph level. -/
theorem levScanBack_mid (levels : List Int) (paraLevel : Int) :
    ∀ n i, levScanBack levels paraLevel n ≤ i → i < n → levels.getD i 0 = paraLevel := by
  intro n
  induction n with
  | zero => intro i h1 h2; omega
  | succ n ih =>
    intro i h1 h2
    by_cases hl : levels.getD n 0 = paraLevel
    · rw [levScanBack_succ, if_pos hl] at h1
      rcases Nat.lt_or_ge i n with h | h
      · exact ih i h1 h
      · have : i = n := by omega
        rw [this]
        exact hl
    · rw [levScanBack_succ, if_neg hl] at h1
      omega

/-- Where the merge scan stopped, the preceding level differs from the
paragraph level (or the scan reached the start). -/
theorem levScanBack_stop (levels : List Int) (paraLevel : Int) :
    ∀ n, levScanBack levels paraLevel n = 0 ∨
      levels.getD (levScanBack levels paraLevel n - 1) 0 ≠ paraLevel := by
  intro n
  induction n with
  | zero => exact Or.inl rfl
  | succ n ih =>
    by_cases hl : levels.getD n 0 = paraLevel
    · rw [levScanBack_succ, if_pos hl]
      exact ih
    · rw [levScanBack_succ, if_neg hl]
      exact Or.inr (by simpa using hl)

/-- Counterexample to claim C5: on the mixed line over `para5`, which ends in
whitespace at the paragraph level, `u8bidi_set_line` computes
`trailingWSStart = 2`, while the first character of the trailing whitespace
sits at index 3 (`wsScanBack` over the line's dirProps): the merge loop of
`setTrailingWSStart` pulled the boundary across the preceding run at
paragraph level. -/
theorem trailing_ws_first_char_cex :
    ((u8bidi_set_line para5 0 4 (some default) UErrorCode.U_ZERO_ERROR).1.map
        (fun l => l.trailingWSStart)) = some 2 ∧
      c5line.direction = UBiDiDirection.UBIDI_MIXED ∧
      wsScanBack c5line.dirProps c5line.length.toNat = 3 ∧ (2 : Int) ≠ 3 := by
  refine ⟨?_, rfl, rfl, by decide⟩
  rfl

/-- Claim C5 as amended: for a line over a mixed paragraph that
`u8bidi_set_line` leaves mixed and whose last character is whitespace (in the
`MASK_WS` sense), `trailingWSStart` equals the start of the trailing
whitespace extended backwards across the immediately preceding characters at
paragraph level: it is at most the first trailing-whitespace index, every
index between it and that first whitespace index carries `paraLevel` in the
levels array and the boundary is maximal, and every index in
`[trailingWSStart, length)` reports `paraLevel` through
`u8bidi_get_level_at`. -/
theorem set_line_trailing_ws (pParaBiDi : U8BiDiPara) (start limit : Int)
    (oldLine line : U8BiDiLine) (h0 : 0 ≤ start) (h1 : start < limit)
    (h2 : limit ≤ pParaBiDi.length)
    (hpara : paraIndexOf pParaBiDi start = paraIndexOf pParaBiDi (limit - 1))
    (hpd : pParaBiDi.direction = UBiDiDirection.UBIDI_MIXED)
    (hres : (u8bidi_set_line pParaBiDi start limit (some oldLine)
      UErrorCode.U_ZERO_ERROR).1 = some line)
    (hmix : line.direction = UBiDiDirection.UBIDI_MIXED)
    (hws : inMaskWS (line.dirProps.getD (line.length.toNat - 1) default) = true) :
    line.trailingWSStart = (levScanBack line.levels line.paraLevel
      (wsScanBack line.dirProps line.length.toNat) : Int) ∧
    line.trailingWSStart ≤ (wsScanBack line.dirProps line.length.toNat : Int) ∧
    (∀ i : Nat, line.trailingWSStart ≤ (i : Int) →
      i < wsScanBack line.dirProps line.length.toNat →
      line.levels.getD i 0 = line.paraLevel) ∧
    (line.trailingWSStart = 0 ∨
      line.levels.getD (line.trailingWSStart.toNat - 1) 0 ≠ line.paraLevel) ∧
    (∀ i : Int, line.trailingWSStart ≤ i → i < line.length →
      u8bidi_get_level_at line i = line.paraLevel) := by
  unfold u8bidi_set_line at hres
  rw [if_neg (by simp [U_FAILURE]), if_neg (by omega), if_neg (by omega)] at hres
  dsimp only at hres
  rw [if_neg (by simp [hpara]), if_neg (by simp [hpd])] at hres
  split at hres
  · exfalso
    rw [Option.some_inj] at hres
    rw [← hres] at hmix
    simp at hmix
  · exfalso
    rw [Option.some_inj] at hres
    rw [← hres] at hmix
    simp at hmix
  · rw [Option.some_inj] at hres
    subst hres
    simp only
    have hBnot : ¬((pParaBiDi.dirProps.drop start.toNat).take
        (limit - start).toNat).getD ((limit - start).toNat - 1) default = DirProp.B := by
      intro hB
      simp only at hws
      rw [hB] at hws
      simp [inMaskWS] at hws
    have htws : setTrailingWSStart
        ((pParaBiDi.dirProps.drop start.toNat).take (limit - start).toNat)
        ((pParaBiDi.levels.drop start.toNat).take (limit - start).toNat)
        (limit - start).toNat (get_para_level_internal_para pParaBiDi start) =
        levScanBack ((pParaBiDi.levels.drop start.toNat).take (limit - start).toNat)
          (get_para_level_internal_para pParaBiDi start)
          (wsScanBack ((pParaBiDi.dirProps.drop start.toNat).take (limit - start).toNat)
            (limit - start).toNat) := by
      unfold setTrailingWSStart
      rw [if_neg hBnot]
    refine ⟨by simp [htws], ?_, ?_, ?_, ?_⟩
    · simp only [htws]
      exact_mod_cast levScanBack_le _ _ _
    · intro i hi1 hi2
      simp only [htws] at hi1 ⊢
      exact levScanBack_mid _ _ _ i (by exact_mod_cast hi1) (by simpa using hi2)
    · simp only [htws]
      rcases levScanBack_stop ((pParaBiDi.levels.drop start.toNat).take
          (limit - start).toNat) (get_para_level_internal_para pParaBiDi start)
          (wsScanBack ((pParaBiDi.dirProps.drop start.toNat).take (limit - start).toNat)
            (limit - start).toNat) with h | h
      · exact Or.inl (by simp [h])
      · refine Or.inr ?_
        simpa using h
    · intro i hi1 hi2
      unfold u8bidi_get_level_at
      rw [if_neg (by simp only at hi1 hi2 ⊢; push_neg; omega)]
      rw [if_pos (Or.inr (by simpa using hi1))]
      rfl

/-- Witness for the amended C5 at a concrete input: the `para5` line, probed
at indices 2 and 3. -/
theorem set_line_trailing_ws_witness :
    c5line.trailingWSStart = (levScanBack c5line.levels c5line.paraLevel
        (wsScanBack c5line.dirProps c5line.length.toNat) : Int) ∧
      c5line.levels.getD 2 0 = c5line.paraLevel ∧
      u8bidi_get_level_at c5line 2 = c5line.paraLevel ∧
      u8bidi_get_level_at c5line 3 = c5line.paraLevel := by
  have h := set_line_trailing_ws para5 0 4 default c5line (by decide) (by decide)
    (by decide) (by decide) rfl rfl rfl rfl
  exact ⟨h.1, h.2.2.1 2 (by decide) (by decide), h.2.2.2.2 2 (by decide) (by decide),
    h.2.2.2.2 3 (by decide) (by decide)⟩

/-- Every `visualLimit` in a monotone run array is at least the incoming
visual start. -/
theorem limitsMono_getD_lb (runs : List BRun) :
    ∀ (vs : Int), LimitsMono vs runs → ∀ k, k < runs.length →
      vs ≤ (runs.getD k default).visualLimit := by
  induction runs with
  | nil => intro vs _ k hk; simp at hk
  | cons r rest ih =>
    intro vs hm k hk
    match k with
    | 0 => simpa using hm.1
    | k + 1 =>
      rw [List.getD_cons_succ]
      exact le_trans hm.1 (ih r.visualLimit hm.2 k (by simpa using hk))

/-- The `visualLimit` fields of a monotone run array are non-decreasing in
the run index. -/
theorem limitsMono_getD_mono (runs : List BRun) :
    ∀ (vs : Int), LimitsMono vs runs → ∀ j k, j ≤ k → k < runs.length →
      (runs.getD j default).visualLimit ≤ (runs.getD k default).visualLimit := by
  induction runs with
  | nil => intro vs _ j k _ hk; simp at hk
  | cons r rest ih =>
    intro vs hm j k hjk hk
    match j, k with
    | 0, 0 => exact le_refl _
    | 0, k + 1 =>
      rw [List.getD_cons_zero, List.getD_cons_succ]
      exact limitsMono_getD_lb rest r.visualLimit hm.2 k (by simpa using hk)
    | j + 1, k + 1 =>
      rw [List.getD_cons_succ, List.getD_cons_succ]
      exact ih r.visualLimit hm.2 j k (by omega) (by simpa using hk)

/-- Every `visualLimit` in a monotone run array is at most the last one. -/
theorem lastVisualLimit_ge (runs : List BRun) :
    ∀ (vs : Int), LimitsMono vs runs → ∀ j, j < runs.length →
      (runs.getD j default).visualLimit ≤ lastVisualLimit runs := by
  induction runs with
  | nil => intro vs _ j hj; simp at hj
  | cons r rest ih =>
    intro vs hm j hj
    cases rest with
    | nil =>
      match j with
      | 0 => simp [lastVisualLimit]
      | j + 1 => simp at hj
    | cons r2 rest2 =>
      rw [show lastVisualLimit (r :: r2 :: rest2) = lastVisualLimit (r2 :: rest2) from
        rfl]
      match j with
      | 0 =>
        rw [List.getD_cons_zero]
        calc r.visualLimit ≤ r2.visualLimit := hm.2.1
          _ = ((r2 :: rest2).getD 0 default).visualLimit := by simp
          _ ≤ lastVisualLimit (r2 :: rest2) := ih r.visualLimit hm.2 0 (by simp)
      | j + 1 =>
        rw [List.getD_cons_succ]
        exact ih r.visualLimit hm.2 j (by simpa using hj)

/-- `prevLimit` stepping through a cons cell. -/
theorem prevLimit_cons_succ (vs : Int) (r : BRun) (rest : List BRun) (t : Nat) :
    prevLimit vs (r :: rest) (t + 1) = prevLimit r.visualLimit rest t := by
  match t with
  | 0 => rfl
  | s + 1 =>
    show ((r :: rest).getD (s + 1) default).visualLimit = _
    rw [List.getD_cons_succ]
    rfl

/-- `prevLimit` as the conditional expression used in
`u8bidi_get_logical_index`. -/
theorem prevLimit_eq_ite (vs : Int) (runs : List BRun) (t : Nat) :
    prevLimit vs runs t =
      if t > 0 then (runs.getD (t - 1) default).visualLimit else vs := by
  match t with
  | 0 => rfl
  | s + 1 => simp [prevLimit]

/-- Unfolding equation of `visSearch` on a cons cell. -/
theorem visSearch_cons (r : BRun) (rest : List BRun) (k vs : Int) :
    visSearch (r :: rest) k vs =
      if 0 ≤ k - r.logicalStart ∧ k - r.logicalStart < r.visualLimit - vs then
        some (if r.odd then vs + (r.visualLimit - vs) - (k - r.logicalStart) - 1
          else vs + (k - r.logicalStart))
      else visSearch rest k r.visualLimit := rfl

/-- Correctness of the visual-index search: a successful `visSearch` lands
inside the visual interval of the run (index `t`) containing the logical
index, and inverting the per-run formula recovers the logical index. -/
theorem visSearch_spec (runs : List BRun) :
    ∀ (k vs v : Int), LimitsMono vs runs → visSearch runs k vs = some v →
      vs ≤ v ∧ ∃ t, t < runs.length ∧
        (∀ j, j < t → (runs.getD j default).visualLimit ≤ v) ∧
        v < (runs.getD t default).visualLimit ∧
        (if (runs.getD t default).odd then
            (runs.getD t default).logicalStart + (runs.getD t default).visualLimit
              - v - 1
          else (runs.getD t default).logicalStart + (v - prevLimit vs runs t)) = k := by
  induction runs with
  | nil => intro k vs v _ hfind; simp [visSearch] at hfind
  | cons r rest ih =>
    intro k vs v hm hfind
    rw [visSearch_cons] at hfind
    by_cases hin : 0 ≤ k - r.logicalStart ∧ k - r.logicalStart < r.visualLimit - vs
    · rw [if_pos hin, Option.some_inj] at hfind
      cases hodd : r.odd with
      | false =>
        rw [hodd] at hfind
        simp only [Bool.false_eq_true, if_false] at hfind
        refine ⟨by omega, 0, by simp, fun j hj => absurd hj (by omega), ?_, ?_⟩
        · simp only [List.getD_cons_zero]
          omega
        · simp only [List.getD_cons_zero, hodd, Bool.false_eq_true, if_false,
            prevLimit]
          omega
      | true =>
        rw [hodd] at hfind
        simp only [if_pos rfl, eq_self_iff_true, if_true] at hfind
        refine ⟨by omega, 0, by simp, fun j hj => absurd hj (by omega), ?_, ?_⟩
        · simp only [List.getD_cons_zero]
          omega
        · simp only [List.getD_cons_zero, hodd, if_pos rfl, eq_self_iff_true, if_true]
          omega
    · rw [if_neg hin] at hfind
      obtain ⟨hv1, t, ht, hbefore, hat, hform⟩ := ih k r.visualLimit v hm.2 hfind
      refine ⟨le_trans hm.1 hv1, t + 1, by simpa using ht, ?_, ?_, ?_⟩
      · intro j hj
        match j with
        | 0 => simpa using hv1
        | j + 1 =>
          rw [List.getD_cons_succ]
          exact hbefore j (by omega)
      · rw [List.getD_cons_succ]
        exact hat
      · rw [List.getD_cons_succ, prevLimit_cons_succ]
        exact hform

/-- The linear run search of `u8bidi_get_logical_index` finds the run whose
visual interval contains the visual index. -/
theorem logSearchLin_spec (runs : List BRun) :
    ∀ (v : Int) (t : Nat), t < runs.length →
      (∀ j, j < t → (runs.getD j default).visualLimit ≤ v) →
      v < (runs.getD t default).visualLimit → logSearchLin runs v = t := by
  induction runs with
  | nil => intro v t ht _ _; simp at ht
  | cons r rest ih =>
    intro v t ht hbefore hat
    match t with
    | 0 =>
      unfold logSearchLin
      rw [if_neg (by simpa using hat)]
    | t + 1 =>
      unfold logSearchLin
      rw [if_pos (by simpa using hbefore 0 (by omega))]
      rw [ih v t (by simpa using ht)
        (fun j hj => by simpa using hbefore (j + 1) (by omega))
        (by simpa using hat)]

/-- The binary run search of `u8bidi_get_logical_index` finds the same run,
on a monotone run array. -/
theorem logSearchBin_spec (runs : List BRun) (v : Int) (t : Nat)
    (hm : LimitsMono 0 runs) (ht : t < runs.length)
    (hbefore : ∀ j, j < t → (runs.getD j default).visualLimit ≤ v)
    (hat : v < (runs.getD t default).visualLimit) :
    ∀ bg lim, bg ≤ t → t < lim → lim ≤ runs.length →
      (bg = 0 ∨ v ≥ (runs.getD (bg - 1) default).visualLimit) →
      logSearchBin runs v bg lim = t := by
  intro bg lim
  generalize hfuel : lim - bg = fuel
  induction fuel using Nat.strong_induction_on generalizing bg lim with
  | _ fuel ih =>
    intro hbg hlim hlen hinv
    subst hfuel
    rw [logSearchBin]
    rw [if_pos (by omega : bg < lim)]
    simp only
    by_cases hge : v ≥ (runs.getD ((bg + lim) / 2) default).visualLimit
    · rw [if_pos hge]
      have hti : (bg + lim) / 2 < t := by
        by_contra hc
        push_neg at hc
        have := limitsMono_getD_mono runs 0 hm t ((bg + lim) / 2) hc (by omega)
        omega
      exact ih (lim - ((bg + lim) / 2 + 1)) (by omega) ((bg + lim) / 2 + 1) lim rfl
        (by omega) hlim hlen (Or.inr (by simpa using hge))
    · rw [if_neg hge]
      push_neg at hge
      have hti : t ≤ (bg + lim) / 2 := by
        by_contra hc
        push_neg at hc
        have := hbefore ((bg + lim) / 2) hc
        omega
      by_cases hz : (bg + lim) / 2 = 0
      · rw [if_pos (Or.inl hz)]
        omega
      · by_cases hprev : v ≥ (runs.getD ((bg + lim) / 2 - 1) default).visualLimit
        · rw [if_pos (Or.inr hprev)]
          by_contra hc
          have htlt : t < (bg + lim) / 2 := by omega
          have : t ≤ (bg + lim) / 2 - 1 := by omega
          have := limitsMono_getD_mono runs 0 hm t ((bg + lim) / 2 - 1) this (by omega)
          omega
        · rw [if_neg (by push_neg at hprev ⊢; exact ⟨fun h => absurd h hz, hprev⟩)]
          push_neg at hprev
          have htlt : t < (bg + lim) / 2 := by
            by_contra hc
            push_neg at hc
            have h1 : (bg + lim) / 2 - 1 < t := by omega
            have := hbefore ((bg + lim) / 2 - 1) h1
            omega
          exact ih ((bg + lim) / 2 - bg) (by omega) bg ((bg + lim) / 2) rfl hbg htlt
            (by omega) hinv

/-- Claim C1: on a line with no inserted LRM/RLM marks and no removed bidi
controls, `u8bidi_get_logical_index` inverts `u8bidi_get_visual_index` at
every logical index.  For a mixed line the materialized run array is required
to be the well-formed output of `u8bidi_get_runs`: monotone prefix-summed
visual limits ending at the line length, with the logical index covered by
some run (the run array partitions the line). -/
theorem bidi_visual_logical_roundtrip (line : U8BiDiLine) (k : Int)
    (hins : line.insertPointsSize = 0) (hctl : line.controlCount = 0)
    (hres : line.resultLength = line.length)
    (hrc : line.runCount = (line.runs.length : Int))
    (hk0 : 0 ≤ k) (hk1 : k < line.length)
    (hmono : line.direction = UBiDiDirection.UBIDI_MIXED → LimitsMono 0 line.runs)
    (hlast : line.direction = UBiDiDirection.UBIDI_MIXED →
      lastVisualLimit line.runs = line.length)
    (hcov : line.direction = UBiDiDirection.UBIDI_MIXED →
      (visSearch line.runs k 0).isSome = true) :
    (u8bidi_get_logical_index line
      (u8bidi_get_visual_index line k UErrorCode.U_ZERO_ERROR).1
      UErrorCode.U_ZERO_ERROR).1 = k := by
  unfold u8bidi_get_visual_index
  rw [if_neg (by simp [U_FAILURE]), if_neg (by push_neg; omega)]
  cases hdir : line.direction with
  | UBIDI_LTR =>
    simp only
    rw [if_neg (by omega), if_neg (by omega)]
    unfold u8bidi_get_logical_index
    rw [if_neg (by simp [U_FAILURE]), if_neg (by push_neg; omega),
      if_pos ⟨hins, hctl, hdir⟩]
  | UBIDI_RTL =>
    simp only
    rw [if_neg (by omega), if_neg (by omega)]
    unfold u8bidi_get_logical_index
    rw [if_neg (by simp [U_FAILURE]), if_neg (by push_neg; omega),
      if_neg (by simp [hdir]), if_pos ⟨hins, hctl, hdir⟩]
    simp only
    omega
  | UBIDI_MIXED =>
    simp only
    obtain ⟨v, hv⟩ := Option.isSome_iff_exists.mp (hcov hdir)
    rw [hv]
    simp only
    obtain ⟨hv0, t, ht, hbefore, hat, hform⟩ :=
      visSearch_spec line.runs k 0 v (hmono hdir) hv
    have hvlast : v < line.length := by
      have h1 := lastVisualLimit_ge line.runs 0 (hmono hdir) t ht
      have h2 := hlast hdir
      omega
    rw [if_neg (by omega), if_neg (by omega)]
    unfold u8bidi_get_logical_index
    rw [if_neg (by simp [U_FAILURE]), if_neg (by push_neg; omega),
      if_neg (by simp [hdir]), if_neg (by simp [hdir]),
      if_neg (by omega), if_neg (by omega)]
    simp only
    have hidx : (if line.runCount ≤ 10 then logSearchLin line.runs v
        else logSearchBin line.runs v 0 line.runCount.toNat) = t := by
      by_cases h10 : line.runCount ≤ 10
      · rw [if_pos h10]
        exact logSearchLin_spec line.runs v t ht hbefore hat
      · rw [if_neg h10]
        rw [show line.runCount.toNat = line.runs.length by omega]
        exact logSearchBin_spec line.runs v t (hmono hdir) ht hbefore hat 0
          line.runs.length (by omega) ht (le_refl _) (Or.inl rfl)
    rw [hidx]
    have hprev := prevLimit_eq_ite 0 line.runs t
    cases ho : (line.runs.getD t default).odd with
    | false =>
      rw [ho] at hform
      simp only [Bool.false_eq_true, if_false] at hform
      simp only [ho, Bool.not_false, if_pos rfl, eq_self_iff_true, if_true]
      rw [← hprev]
      exact hform
    | true =>
      rw [ho] at hform
      simp only [if_pos rfl, eq_self_iff_true, if_true] at hform
      simp only [ho, Bool.not_true, Bool.false_eq_true, if_false]
      exact hform

/-- Witness for C1 at a concrete input: the two-run mixed line `c1line`,
probed at logical index 2 (inside the odd run). -/
theorem bidi_visual_logical_roundtrip_witness :
    c1line.insertPointsSize = 0 ∧ c1line.controlCount = 0 ∧
      (u8bidi_get_logical_index c1line
        (u8bidi_get_visual_index c1line 2 UErrorCode.U_ZERO_ERROR).1
        UErrorCode.U_ZERO_ERROR).1 = 2 :=
  ⟨rfl, rfl,
    bidi_visual_logical_roundtrip c1line 2 rfl rfl rfl rfl (by decide) (by decide)
      (fun _ => ⟨by decide, by decide, trivial⟩) (fun _ => by decide)
      (fun _ => by decide)⟩

/-- Low bit of an even number. -/
theorem nat_or_one_even (n : Nat) (h : n % 2 = 0) : n ||| 1 = n + 1 := by
  apply Nat.eq_of_testBit_eq
  intro i
  rw [Nat.testBit_or]
  cases i with
  | zero =>
    simp [Nat.testBit_zero]
    omega
  | succ i =>
    simp [Nat.testBit_succ]
    congr 1
    omega

/-- Low bit of an odd number. -/
theorem nat_or_one_odd (n : Nat) (h : n % 2 = 1) : n ||| 1 = n := by
  apply Nat.eq_of_testBit_eq
  intro i
  rw [Nat.testBit_or]
  cases i with
  | zero =>
    simp [Nat.testBit_zero]
    omega
  | succ i =>
    simp [Nat.testBit_succ]

/-- A `takeWhile` over elements that all satisfy the predicate. -/
theorem takeWhile_of_all {α : Type} (p : α → Bool) :
    ∀ xs : List α, (∀ x ∈ xs, p x = true) → xs.takeWhile p = xs := by
  intro xs
  induction xs with
  | nil => intro _; rfl
  | cons a l ih =>
    intro h
    rw [List.takeWhile_cons, if_pos (h a (by simp)), ih (fun x hx => h x (by simp [hx]))]

/-- A `dropWhile` over elements that all satisfy the predicate. -/
theorem dropWhile_of_all {α : Type} (p : α → Bool) :
    ∀ xs : List α, (∀ x ∈ xs, p x = true) → xs.dropWhile p = [] := by
  intro xs
  induction xs with
  | nil => intro _; rfl
  | cons a l ih =>
    intro h
    rw [List.dropWhile_cons, if_pos (h a (by simp)), ih (fun x hx => h x (by simp [hx]))]

/-- Appending one failing element does not change a `takeWhile`. -/
theorem takeWhile_append_single {α : Type} (p : α → Bool) (w : α) (hw : p w = false) :
    ∀ xs : List α, (xs ++ [w]).takeWhile p = xs.takeWhile p := by
  intro xs
  induction xs with
  | nil => simp [List.takeWhile_cons, hw]
  | cons a l ih =>
    rw [List.cons_append, List.takeWhile_cons, List.takeWhile_cons]
    by_cases ha : p a
    · rw [if_pos ha, if_pos ha, ih]
    · rw [if_neg ha, if_neg ha]

/-- Appending one failing element lands it at the end of a `dropWhile`. -/
theorem dropWhile_append_single {α : Type} (p : α → Bool) (w : α) (hw : p w = false) :
    ∀ xs : List α, (xs ++ [w]).dropWhile p = xs.dropWhile p ++ [w] := by
  intro xs
  induction xs with
  | nil => simp [List.dropWhile_cons, hw]
  | cons a l ih =>
    rw [List.cons_append, List.dropWhile_cons, List.dropWhile_cons]
    by_cases ha : p a
    · rw [if_pos ha, if_pos ha, ih]
    · rw [if_neg ha, if_neg ha, List.cons_append]

/-- The tail of an adjacent-distinct list is adjacent-distinct. -/
theorem adjDistinct_tail {α : Type} (lev : α → Nat) (r : α) (rest : List α)
    (h : adjDistinct lev (r :: rest)) : adjDistinct lev rest := by
  cases rest with
  | nil => trivial
  | cons x l => exact h.2

/-- An adjacent-distinct list whose levels all agree has at most one
element. -/
theorem adjDistinct_const_len {α : Type} (lev : α → Nat) (rs : List α) (c : Nat)
    (hadj : adjDistinct lev rs) (hc : ∀ r ∈ rs, lev r = c) : rs.length ≤ 1 := by
  match rs with
  | [] => simp
  | [r] => simp
  | r1 :: r2 :: rest =>
    exfalso
    exact hadj.1 (by rw [hc r1 (by simp), hc r2 (by simp)])

/-- A pass over the empty list. -/
theorem reversePass_nil {α : Type} (lev : α → Nat) (l : Nat) :
    reversePass lev l [] = [] := by
  rw [reversePass]

/-- A pass leaves a singleton unchanged. -/
theorem reversePass_singleton {α : Type} (lev : α → Nat) (l : Nat) (r : α) :
    reversePass lev l [r] = [r] := by
  rw [reversePass]
  by_cases hl : lev r < l
  · rw [if_pos hl]
    rw [reversePass]
  · rw [if_neg hl]
    rw [List.takeWhile_cons, if_pos (by simpa using by omega : decide (l ≤ lev r) = true)]
    rw [List.dropWhile_cons, if_pos (by simpa using by omega : decide (l ≤ lev r) = true)]
    simp [reversePass]

/-- A pass at a level no element reaches twice in a row is the identity:
with adjacent-distinct levels all bounded by `l`, every maximal `≥ l`
sequence is a singleton. -/
theorem reversePass_id {α : Type} (lev : α → Nat) (l : Nat) :
    ∀ rs : List α, adjDistinct lev rs → (∀ r ∈ rs, lev r ≤ l) →
      reversePass lev l rs = rs := by
  intro rs
  induction rs with
  | nil => intro _ _; exact reversePass_nil lev l
  | cons r rest ih =>
    intro hadj hb
    rw [reversePass]
    by_cases hl : lev r < l
    · rw [if_pos hl, ih (adjDistinct_tail lev r rest hadj)
        (fun x hx => hb x (by simp [hx]))]
    · rw [if_neg hl]
      have hr : lev r = l := by
        have := hb r (by simp)
        omega
      have htw : (r :: rest).takeWhile (fun x => decide (l ≤ lev x)) = [r] := by
        rw [List.takeWhile_cons, if_pos (by simpa using by omega)]
        cases rest with
        | nil => rfl
        | cons x l2 =>
          rw [List.takeWhile_cons, if_neg ?_]
          have hx : lev x ≤ l := hb x (by simp)
          have hne : lev r ≠ lev x := hadj.1
          simp only [decide_eq_true_eq]
          omega
      have hdw : (r :: rest).dropWhile (fun x => decide (l ≤ lev x)) = rest := by
        rw [List.dropWhile_cons, if_pos (by simpa using by omega)]
        cases rest with
        | nil => rfl
        | cons x l2 =>
          rw [List.dropWhile_cons, if_neg ?_]
          have hx : lev x ≤ l := hb x (by simp)
          have hne : lev r ≠ lev x := hadj.1
          simp only [decide_eq_true_eq]
          omega
      rw [htw, hdw, ih (adjDistinct_tail lev r rest hadj)
        (fun x hx => hb x (by simp [hx]))]
      rfl

/-- A pass at a level every element reaches reverses the whole list. -/
theorem reversePass_all_rev {α : Type} (lev : α → Nat) (l : Nat) :
    ∀ rs : List α, (∀ r ∈ rs, l ≤ lev r) → reversePass lev l rs = rs.reverse := by
  intro rs hb
  cases rs with
  | nil => exact reversePass_nil lev l
  | cons r rest =>
    rw [reversePass, if_neg (by have := hb r (by simp); omega)]
    rw [takeWhile_of_all _ _ (fun x hx => by simpa using hb x hx)]
    rw [dropWhile_of_all _ _ (fun x hx => by simpa using hb x hx)]
    rw [reversePass_nil, List.append_nil]

/-- A trailing element below the pass level passes through unchanged. -/
theorem reversePass_append_single {α : Type} (lev : α → Nat) (l : Nat) (w : α)
    (hw : lev w < l) :
    ∀ xs : List α, reversePass lev l (xs ++ [w]) = reversePass lev l xs ++ [w] := by
  suffices H : ∀ n : Nat, ∀ xs : List α, xs.length ≤ n →
      reversePass lev l (xs ++ [w]) = reversePass lev l xs ++ [w] by
    intro xs
    exact H xs.length xs (le_refl _)
  intro n
  induction n with
  | zero =>
    intro xs hlen
    have hx : xs = [] := List.length_eq_zero.mp (Nat.le_zero.mp hlen)
    subst hx
    rw [List.nil_append, reversePass_nil, List.nil_append, reversePass, if_pos hw,
      reversePass_nil]
  | succ n ih =>
    intro xs hlen
    match xs with
    | [] =>
      rw [List.nil_append, reversePass_nil, List.nil_append, reversePass, if_pos hw,
        reversePass_nil]
    | r :: rest =>
      rw [show (r :: rest) ++ [w] = r :: (rest ++ [w]) from rfl, reversePass, reversePass]
      by_cases hr : lev r < l
      · rw [if_pos hr, if_pos hr, ih rest (by simp only [List.length_cons] at hlen; omega),
          List.cons_append]
      · rw [if_neg hr, if_neg hr, ← List.cons_append,
          takeWhile_append_single _ w (decide_eq_false (by omega : ¬ l ≤ lev w)),
          dropWhile_append_single _ w (decide_eq_false (by omega : ¬ l ≤ lev w))]
        have hpr : (fun x => decide (l ≤ lev x)) r = true := by
          simp only [decide_eq_true_eq]
          omega
        have hlen2 : ((r :: rest).dropWhile (fun x => decide (l ≤ lev x))).length ≤ n := by
          rw [List.dropWhile_cons, if_pos hpr]
          have := (List.dropWhile_sublist (l := rest) (fun x => decide (l ≤ lev x))).length_le
          simp only [List.length_cons] at hlen
          omega
        rw [ih _ hlen2, ← List.append_assoc]

/-- A pass permutes the list: membership is preserved. -/
theorem reversePass_mem {α : Type} (lev : α → Nat) (l : Nat) :
    ∀ xs : List α, ∀ x : α, x ∈ reversePass lev l xs ↔ x ∈ xs := by
  suffices H : ∀ n : Nat, ∀ xs : List α, xs.length ≤ n → ∀ x : α,
      x ∈ reversePass lev l xs ↔ x ∈ xs by
    intro xs x
    exact H xs.length xs (le_refl _) x
  intro n
  induction n with
  | zero =>
    intro xs hlen x
    have hx : xs = [] := List.length_eq_zero.mp (Nat.le_zero.mp hlen)
    subst hx
    rw [reversePass_nil]
  | succ n ih =>
    intro xs hlen x
    match xs with
    | [] => rw [reversePass_nil]
    | r :: rest =>
      rw [reversePass]
      by_cases hr : lev r < l
      · rw [if_pos hr]
        simp only [List.mem_cons, ih rest (by simp only [List.length_cons] at hlen; omega) x]
      · rw [if_neg hr]
        have hpr : (fun x => decide (l ≤ lev x)) r = true := by
          simp only [decide_eq_true_eq]
          omega
        have hlen2 : ((r :: rest).dropWhile (fun x => decide (l ≤ lev x))).length ≤ n := by
          rw [List.dropWhile_cons, if_pos hpr]
          have := (List.dropWhile_sublist (l := rest) (fun x => decide (l ≤ lev x))).length_le
          simp only [List.length_cons] at hlen
          omega
        rw [List.mem_append, List.mem_reverse, ih _ hlen2 x, ← List.mem_append,
          List.takeWhile_append_dropWhile]

/-- Unfolding equation of `passesDown` at height 0. -/
theorem passesDown_zero {α : Type} (lev : α → Nat) (lo : Nat) (rs : List α) :
    passesDown lev lo 0 rs = if lo = 0 then reversePass lev 0 rs else rs := rfl

/-- Unfolding equation of `passesDown` at a successor height. -/
theorem passesDown_succ {α : Type} (lev : α → Nat) (lo hi : Nat) (rs : List α) :
    passesDown lev lo (hi + 1) rs =
      if hi + 1 < lo then rs else passesDown lev lo hi (reversePass lev (hi + 1) rs) := rfl

/-- An empty pass range does nothing. -/
theorem passesDown_out {α : Type} (lev : α → Nat) (lo hi : Nat) (hlt : hi < lo)
    (rs : List α) : passesDown lev lo hi rs = rs := by
  cases hi with
  | zero => rw [passesDown_zero, if_neg (by omega)]
  | succ h => rw [passesDown_succ, if_pos hlt]

/-- Passes leave a singleton unchanged. -/
theorem passesDown_singleton {α : Type} (lev : α → Nat) (lo : Nat) (r : α) :
    ∀ hi : Nat, passesDown lev lo hi [r] = [r] := by
  intro hi
  induction hi with
  | zero =>
    rw [passesDown_zero]
    by_cases h0 : lo = 0
    · rw [if_pos h0, reversePass_singleton]
    · rw [if_neg h0]
  | succ h ih =>
    rw [passesDown_succ]
    by_cases hlt : h + 1 < lo
    · rw [if_pos hlt]
    · rw [if_neg hlt, reversePass_singleton, ih]

/-- Passes permute the list: membership is preserved. -/
theorem passesDown_mem {α : Type} (lev : α → Nat) (lo : Nat) :
    ∀ hi : Nat, ∀ rs : List α, ∀ x : α, x ∈ passesDown lev lo hi rs ↔ x ∈ rs := by
  intro hi
  induction hi with
  | zero =>
    intro rs x
    rw [passesDown_zero]
    by_cases h0 : lo = 0
    · rw [if_pos h0, reversePass_mem]
    · rw [if_neg h0]
  | succ h ih =>
    intro rs x
    rw [passesDown_succ]
    by_cases hlt : h + 1 < lo
    · rw [if_pos hlt]
    · rw [if_neg hlt, ih, reversePass_mem]

/-- A trailing element below every pass level passes through all passes. -/
theorem passesDown_append_single {α : Type} (lev : α → Nat) (lo : Nat) (w : α)
    (hlo : 1 ≤ lo) (hw : lev w < lo) :
    ∀ hi : Nat, ∀ xs : List α,
      passesDown lev lo hi (xs ++ [w]) = passesDown lev lo hi xs ++ [w] := by
  intro hi
  induction hi with
  | zero =>
    intro xs
    rw [passesDown_zero, passesDown_zero, if_neg (by omega), if_neg (by omega)]
  | succ h ih =>
    intro xs
    rw [passesDown_succ, passesDown_succ]
    by_cases hlt : h + 1 < lo
    · rw [if_pos hlt, if_pos hlt]
    · rw [if_neg hlt, if_neg hlt, reversePass_append_single lev (h + 1) w (by omega) xs, ih]

/-- The lowest pass can be peeled off and applied last. -/
theorem passesDown_peel_bottom {α : Type} (lev : α → Nat) (lo : Nat) :
    ∀ hi : Nat, lo ≤ hi → ∀ rs : List α,
      passesDown lev lo hi rs = reversePass lev lo (passesDown lev (lo + 1) hi rs) := by
  intro hi
  induction hi with
  | zero =>
    intro hle rs
    have h0 : lo = 0 := Nat.le_zero.mp hle
    subst h0
    rw [passesDown_zero, if_pos rfl, passesDown_zero, if_neg (by omega)]
  | succ h ih =>
    intro hle rs
    by_cases heq : lo = h + 1
    · subst heq
      rw [passesDown_out lev (h + 1 + 1) (h + 1) (by omega)]
      rw [passesDown_succ, if_neg (show ¬ h + 1 < h + 1 by omega),
        passesDown_out lev (h + 1) h (by omega)]
    · have hlt : lo ≤ h := by omega
      rw [passesDown_succ, if_neg (show ¬ h + 1 < lo by omega), ih hlt]
      rw [passesDown_succ, if_neg (show ¬ h + 1 < lo + 1 by omega)]

/-- The highest pass comes first. -/
theorem passesDown_peel_top {α : Type} (lev : α → Nat) (lo hi : Nat) (hle : lo ≤ hi)
    (h1 : 1 ≤ hi) (rs : List α) :
    passesDown lev lo hi rs = passesDown lev lo (hi - 1) (reversePass lev hi rs) := by
  cases hi with
  | zero => omega
  | succ h =>
    rw [passesDown_succ, if_neg (by omega), Nat.add_sub_cancel]

/-- C2: for every run list satisfying the precondition established by
`u8bidi_get_runs` (levels bounded by `UBIDI_MAX_EXPLICIT_LEVEL`, adjacent
runs at distinct levels, and the separate trailing-WS run — when present —
last, at the paragraph level `minLevel`, preceded by a run at a different
level), the visual order produced by `reorderLine` (including the
trailing-whitespace exclusion and the final all-runs reversal when the
minimum level is odd) equals the reference UBA line reordering, which
reverses each maximal sequence of runs at level `≥ l` for every `l` from
`maxLevel` down to `minLevel|1`. -/
theorem reorder_line_matches_uba {α : Type} (lev : α → Nat) (hasWS : Bool)
    (minLevel maxLevel : Nat) (rs : List α)
    (hpre : ReorderPre lev hasWS minLevel maxLevel rs) :
    reorderLine lev hasWS minLevel maxLevel rs = reorderRef lev minLevel maxLevel rs := by
  obtain ⟨hmax, hbody⟩ := hpre
  cases hasWS with
  | false =>
    simp only [Bool.false_eq_true, if_false] at hbody
    obtain ⟨hne, hadj, hb⟩ := hbody
    simp only [reorderLine, reorderRef, Bool.false_eq_true, if_false]
    by_cases hpar : minLevel % 2 = 0
    · rw [nat_or_one_even minLevel hpar]
      by_cases hearly : maxLevel ≤ minLevel + 1
      · rw [if_pos hearly]
        by_cases hm2 : maxLevel = minLevel + 1
        · subst hm2
          rw [passesDown_succ, if_neg (show ¬ minLevel + 1 < minLevel + 1 by omega),
            passesDown_out lev (minLevel + 1) minLevel (by omega),
            reversePass_id lev (minLevel + 1) rs hadj
              (fun r hr => by have := hb r hr; omega)]
        · rw [passesDown_out lev (minLevel + 1) maxLevel (by omega)]
      · rw [if_neg hearly, if_neg (show ¬ (minLevel + 1) % 2 = 0 by omega),
          passesDown_peel_top lev (minLevel + 1) maxLevel (by omega) (by omega),
          reversePass_id lev maxLevel rs hadj (fun r hr => (hb r hr).2)]
    · rw [nat_or_one_odd minLevel (by omega)]
      by_cases hearly : maxLevel ≤ minLevel
      · rw [if_pos hearly]
        by_cases hm2 : maxLevel = minLevel
        · have hall : ∀ r ∈ rs, lev r = minLevel := fun r hr => by
            have := hb r hr
            omega
          have hlen : rs.length ≤ 1 := adjDistinct_const_len lev rs minLevel hadj hall
          match rs, hne, hlen with
          | [r], _, _ => rw [passesDown_singleton]
          | r1 :: r2 :: rest, _, hlen => simp at hlen
        · rw [passesDown_out lev minLevel maxLevel (by omega)]
      · rw [if_neg hearly, if_pos (show (minLevel + 1) % 2 = 0 by omega),
          passesDown_peel_top lev minLevel maxLevel (by omega) (by omega),
          reversePass_id lev maxLevel rs hadj (fun r hr => (hb r hr).2),
          passesDown_peel_bottom lev minLevel (maxLevel - 1) (by omega),
          reversePass_all_rev lev minLevel (passesDown lev (minLevel + 1) (maxLevel - 1) rs)
            (fun r hr =>
              (hb r ((passesDown_mem lev (minLevel + 1) (maxLevel - 1) rs r).mp hr)).1)]
  | true =>
    simp only [if_pos rfl, eq_self_iff_true, if_true] at hbody
    obtain ⟨pre, bl, ws, hrs, hws, hbl, hadj, hb⟩ := hbody
    have hble : minLevel ≤ lev bl ∧ lev bl ≤ maxLevel := hb bl (by simp)
    have hgt : minLevel < maxLevel := by
      rcases hble with ⟨h1, h2⟩
      omega
    have hdecomp : rs = (pre ++ [bl]) ++ [ws] := by
      rw [hrs, List.append_assoc]
      rfl
    have hdl : rs.dropLast = pre ++ [bl] := by
      rw [hdecomp, List.dropLast_concat]
    have hdrop : rs.drop (rs.length - 1) = [ws] := by
      rw [hdecomp]
      have hlen : ((pre ++ [bl]) ++ [ws]).length - 1 = (pre ++ [bl]).length := by
        simp
      rw [hlen, List.drop_left]
    simp only [reorderLine, reorderRef, if_pos rfl, eq_self_iff_true, if_true]
    rw [hdl, hdrop]
    by_cases hpar : minLevel % 2 = 0
    · rw [nat_or_one_even minLevel hpar]
      by_cases hearly : maxLevel ≤ minLevel + 1
      · rw [if_pos hearly]
        have hm2 : maxLevel = minLevel + 1 := by omega
        subst hm2
        rw [passesDown_succ, if_neg (show ¬ minLevel + 1 < minLevel + 1 by omega),
          passesDown_out lev (minLevel + 1) minLevel (by omega), hdecomp,
          reversePass_append_single lev (minLevel + 1) ws (by omega) (pre ++ [bl]),
          reversePass_id lev (minLevel + 1) (pre ++ [bl]) hadj
            (fun r hr => by have := hb r hr; omega)]
      · rw [if_neg hearly, if_neg (show ¬ (minLevel + 1) % 2 = 0 by omega),
          passesDown_peel_top lev (minLevel + 1) maxLevel (by omega) (by omega), hdecomp,
          reversePass_append_single lev maxLevel ws (by omega) (pre ++ [bl]),
          reversePass_id lev maxLevel (pre ++ [bl]) hadj (fun r hr => (hb r hr).2),
          passesDown_append_single lev (minLevel + 1) ws (by omega) (by omega)
            (maxLevel - 1) (pre ++ [bl])]
    · rw [nat_or_one_odd minLevel (by omega),
        if_neg (show ¬ maxLevel ≤ minLevel by omega),
        if_pos (show (minLevel + 1) % 2 = 0 by omega),
        passesDown_peel_top lev minLevel maxLevel (by omega) (by omega), hdecomp,
        reversePass_append_single lev maxLevel ws (by omega) (pre ++ [bl]),
        reversePass_id lev maxLevel (pre ++ [bl]) hadj (fun r hr => (hb r hr).2),
        passesDown_peel_bottom lev minLevel (maxLevel - 1) (by omega),
        passesDown_append_single lev (minLevel + 1) ws (by omega) (by omega)
          (maxLevel - 1) (pre ++ [bl]),
        reversePass_all_rev lev minLevel
          (passesDown lev (minLevel + 1) (maxLevel - 1) (pre ++ [bl]) ++ [ws]) ?_]
      intro r hr
      rcases List.mem_append.mp hr with hr | hr
      · exact (hb r ((passesDown_mem lev (minLevel + 1) (maxLevel - 1) (pre ++ [bl]) r).mp
          hr)).1
      · have hrw : r = ws := by simpa using hr
        subst hrw
        omega

/-- Witness for C2 at a concrete three-run line with levels 1, 2, 1. -/
theorem reorder_line_matches_uba_witness :
    reorderLine (fun n : Nat => n) false 0 2 [1, 2, 1] =
      reorderRef (fun n : Nat => n) 0 2 [1, 2, 1] :=
  reorder_line_matches_uba (fun n : Nat => n) false 0 2 [1, 2, 1]
    ⟨by decide, by
      simp only [Bool.false_eq_true, if_false]
      refine ⟨by simp, ⟨by decide, by decide, trivial⟩, by decide⟩⟩

end RichText
